import Mathlib

/-!
Verification of the Robust Rank Aggregation (RRA) statistical engine
(`src/RRA.c`): percentile computation, the lo-value statistic, and the
false-discovery-rate estimator.  The C code is shallowly embedded over `ℚ`
(the double-precision values and the exact rational model share the
arithmetic structure the claims are about).  External primitives declared
in headers that are not part of the analysed sources (`QuicksortF`,
`bTreeSearchingF`, `BetaNoncentralCdf`, `PlantSeeds`, `Uniform`) are
modelled from the specification's contracts, as documented on each
definition.
-/

namespace RRA

/-- A group record (`GROUP_STRUCT`): the fields the statistical engine
reads and writes.  The name and the item array are irrelevant to the
claims about `ComputeFDR`; only the item count, the lo-value and the FDR
are carried. -/
structure Group where
  itemNum : ℕ
  loValue : ℚ
  fdr : ℚ
deriving DecidableEq

instance : Inhabited Group := ⟨⟨0, 0, 0⟩⟩

/-- Default group used with `List.getD`. -/
def dG : Group := ⟨0, 0, 0⟩

/-- The epsilon `0.000000001` used to bracket values when ranking
(`RRA.c` lines 475-476 and 587-588). -/
def epsQ : ℚ := 1 / 1000000000

/-- Modelled from the spec: `rankBelow(threshold, sortedValues)` returns
the count of elements strictly less than `threshold` in a sorted sequence
(a binary-search insertion point).  This is `bTreeSearchingF` of
`math_api`, which is declared but not among the analysed sources. -/
def bTreeSearchingF (x : ℚ) (l : List ℚ) : ℕ :=
  l.countP (fun y => decide (y < x))

/-- Modelled from the spec: `sort(values)` sorts a numeric sequence
ascending (`QuicksortF` of `math_api`, declared but not among the
analysed sources).  Modelled as insertion sort: on rational values the
ascending reordering of a multiset is unique, so any comparison sort is
extensionally this function. -/
def QuicksortF (l : List ℚ) : List ℚ :=
  List.insertionSort (fun a b => a ≤ b) l

/-- The percentile assigned to an item with value `v` whose list holds
the (sorted) values `l` (`RRA.c` lines 475-478):
`((double)index1+index2+1)/(itemNum*2)` where `index1`/`index2` are the
bracketing ranks at `v ± 1e-9`. -/
def percentileOf (v : ℚ) (l : List ℚ) : ℚ :=
  ((bTreeSearchingF (v - epsQ) l : ℚ) + (bTreeSearchingF (v + epsQ) l : ℚ) + 1)
    / ((l.length : ℚ) * 2)

/-- Modelled from the spec: the Beta CDF evaluator (`BetaNoncentralCdf`
of `math_api`, declared but not among the analysed sources).  The core
always calls it with noncentrality `0` and integer shape parameters
`(a, b) = (i+1, n-i)`, so it is the central Beta CDF, which for positive
integer shapes is the order-statistic binomial tail
`P(X ≤ x) = Σ_{j=a}^{a+b-1} C(a+b-1, j) x^j (1-x)^(a+b-1-j)`,
clamped to `0` below the support and to `1` above it.  The fixed absolute
error tolerance `1e-10` of the numerical evaluator is modelled as exact
evaluation. -/
def BetaNoncentralCdf (a b : ℕ) (x : ℚ) : ℚ :=
  if x ≤ 0 then 0
  else if 1 ≤ x then 1
  else Finset.sum (Finset.Icc a (a + b - 1))
    (fun j => (Nat.choose (a + b - 1) j : ℚ) * x ^ j * (1 - x) ^ (a + b - 1 - j))

/-- The CDF values the lo-value scan evaluates: element at absolute
index `i` (first argument is the running index) of a window of the
sorted percentiles is the central Beta CDF with shape `(i+1, n-i)` at
that percentile (`RRA.c` line 519). -/
def cdfList (n : ℕ) : ℕ → List ℚ → List ℚ
  | _, [] => []
  | i, x :: xs => BetaNoncentralCdf (i + 1) (n - i) x :: cdfList n (i + 1) xs

/-- Index of the first element of `l` that exceeds `maxP` (length of `l`
when none does): the point at which the scan over indices `i ≥ 1`
breaks. -/
def breakIdx (maxP : ℚ) : List ℚ → ℕ
  | [] => 0
  | x :: xs => if maxP < x then 0 else breakIdx maxP xs + 1

/-- Number of scanned indices of the lo-value loop (`RRA.c` lines
513-524): index `0` is always scanned; the scan then stops at the first
index `i ≥ 1` whose sorted percentile exceeds `maxP`. -/
def stopIndex (p : List ℚ) (maxP : ℚ) : ℕ :=
  match QuicksortF p with
  | [] => 0
  | _ :: xs => 1 + breakIdx maxP xs

/-- The lo-value loop from index `i ≥ 1` on: break before evaluating
when the element exceeds `maxP`, otherwise fold the Beta CDF value into
the running minimum (`RRA.c` lines 513-524). -/
def loScanTail (n : ℕ) (maxP : ℚ) : ℕ → List ℚ → ℚ → ℚ
  | _, [], acc => acc
  | i, x :: xs, acc =>
    if maxP < x then acc
    else loScanTail n maxP (i + 1) xs (min acc (BetaNoncentralCdf (i + 1) (n - i) x))

/-- `ComputeLoValue` (`RRA.c` lines 489-531) with the caller's array
made explicit: the function copies the percentiles into a private
buffer, sorts the copy, and scans it; the first component is the
caller's array after the call, the second the lo-value written through
the output pointer.  At index `0` the break condition is false (`i > 0`
fails), so the first CDF value is always folded into the initial
accumulator `1.0`. -/
def ComputeLoValueWithMem (percentiles : List ℚ) (maxPercentile : ℚ) : List ℚ × ℚ :=
  let tmpArray := QuicksortF percentiles
  (percentiles,
    match tmpArray with
    | [] => 1
    | x :: xs =>
      loScanTail percentiles.length maxPercentile 1 xs
        (min 1 (BetaNoncentralCdf 1 percentiles.length x)))

/-- The lo-value returned by `ComputeLoValue`. -/
def ComputeLoValue (percentiles : List ℚ) (maxPercentile : ℚ) : ℚ :=
  (ComputeLoValueWithMem percentiles maxPercentile).2

/-- The Beta CDF values evaluated at the scanned indices: the scan
covers the first `stopIndex` sorted percentiles, and at scanned index
`i` evaluates the central Beta CDF with shape `(i+1, n-i)`. -/
def scannedCdfs (p : List ℚ) (maxP : ℚ) : List ℚ :=
  cdfList p.length 0 ((QuicksortF p).take (stopIndex p maxP))

/-- Modulus of the Lehmer generator of `rngs`. -/
def MODULUS : ℕ := 2147483647

/-- Multiplier of the Lehmer generator of `rngs`. -/
def MULTIPLIER : ℕ := 48271

/-- Modelled from the spec: one step of the seeded deterministic uniform
random generator (`rngs`, declared but not among the analysed sources):
a Lehmer-style multiplicative congruential step. -/
def rngNext (s : ℕ) : ℕ := MULTIPLIER * s % MODULUS

/-- Modelled from the spec: `Random()` advances the generator state and
returns the state scaled into `(0,1)`. -/
def Random (s : ℕ) : ℕ × ℚ := (rngNext s, (rngNext s : ℚ) / (MODULUS : ℚ))

/-- Modelled from the spec: `Uniform(a, b)` draws `a + (b-a)·Random()`,
advancing the generator state. -/
def Uniform (a b : ℚ) (s : ℕ) : ℕ × ℚ :=
  ((Random s).1, a + (b - a) * (Random s).2)

/-- Modelled from the spec: `PlantSeeds(x)` resets the process-wide
generator state to the seed `x`, discarding the previous state. -/
def PlantSeeds (x : ℕ) : ℕ := x

/-- Draw `k` synthetic percentiles `Uniform(0,1)` in index order,
threading the generator state (`RRA.c` lines 570-573). -/
def drawPercentiles : ℕ → ℕ → List ℚ × ℕ
  | 0, s => ([], s)
  | k + 1, s =>
    let u := Uniform 0 1 s
    let rest := drawPercentiles k u.1
    (u.2 :: rest.1, rest.2)

/-- One synthetic pass (`RRA.c` lines 568-578): for each real group in
order, draw as many uniform percentiles as the group has items and
record the lo-value of the drawn set. -/
def poolOnePass (maxP : ℚ) : List Group → ℕ → List ℚ × ℕ
  | [], s => ([], s)
  | g :: rest, s =>
    let d := drawPercentiles g.itemNum s
    let r := poolOnePass maxP rest d.2
    (ComputeLoValue d.1 maxP :: r.1, r.2)

/-- All synthetic passes (`RRA.c` lines 566-579), pooling every
synthetic lo-value into one sequence in pass-major order. -/
def poolPasses (maxP : ℚ) (groups : List Group) : ℕ → ℕ → List ℚ × ℕ
  | 0, s => ([], s)
  | p + 1, s =>
    let one := poolOnePass maxP groups s
    let r := poolPasses maxP groups p one.2
    (one.1 ++ r.1, r.2)

/-- The number of synthetic passes (`RRA.c` line 540):
`int scanPass = numOfRandPass/groupNum+1` — C integer (floor) division
plus one. -/
def scanPassOf (numOfRandPass groupNum : ℕ) : ℕ :=
  numOfRandPass / groupNum + 1

/-- The pooled synthetic lo-values of `ComputeFDR`: the generator is
seeded with the constant `123456` (`RRA.c` line 564) and `scanPass`
passes are accumulated. -/
def randLoValues (groups : List Group) (maxP : ℚ) (scanPass : ℕ) : List ℚ :=
  (poolPasses maxP groups scanPass (PlantSeeds 123456)).1

/-- The epsilon-bracketed two-sided rank of `lo` within the pooled
lo-values (`RRA.c` lines 587-588): count strictly below `lo - 1e-9`,
plus count strictly below `lo + 1e-9`, plus one. -/
def rankIn (pool : List ℚ) (lo : ℚ) : ℕ :=
  bTreeSearchingF (lo - epsQ) pool + bTreeSearchingF (lo + epsQ) pool + 1

/-- The raw FDR assigned to the group at rank `i` (`RRA.c` lines
585-590): `rank / 2 / poolSize / (i + 0.5) * groupNum`. -/
def fdrOf (pool : List ℚ) (gc i : ℕ) (lo : ℚ) : ℚ :=
  (rankIn pool lo : ℚ) / 2 / (pool.length : ℚ) / ((i : ℚ) + 1 / 2) * (gc : ℚ)

/-- The FDR assignment loop over the sorted groups, `i` being the
running rank (`RRA.c` lines 585-590). -/
def assignFdr (pool : List ℚ) (gc : ℕ) : ℕ → List Group → List Group
  | _, [] => []
  | i, g :: rest =>
    { g with fdr := fdrOf pool gc i g.loValue } :: assignFdr pool gc (i + 1) rest

/-- Clamp the last (least significant) group's FDR to at most `1.0`
(`RRA.c` lines 592-595). -/
def clampLast : List Group → List Group
  | [] => []
  | [g] => [if g.fdr > 1 then { g with fdr := 1 } else g]
  | g :: g₂ :: rest => g :: clampLast (g₂ :: rest)

/-- The monotone smoothing sweep (`RRA.c` lines 597-603): from the last
group down to the first, lower each FDR to the (already swept) FDR of
its successor whenever it exceeds it. -/
def monoSweep : List Group → List Group
  | [] => []
  | [g] => [g]
  | g :: g₂ :: rest =>
    let r := monoSweep (g₂ :: rest)
    let h := r.headD g₂
    (if g.fdr > h.fdr then { g with fdr := h.fdr } else g) :: r

instance : IsTrans Group (fun a b : Group => a.loValue ≤ b.loValue) :=
  ⟨fun _ _ _ hab hbc => le_trans hab hbc⟩

/-- `groups[k].loValue` at integer index `k` (array reads in
`QuickSortGroupByLoValue` use `int` indices; an index is mapped to the
list position through `Int.toNat`). -/
def vAt (a : List Group) (k : ℤ) : ℚ := (a.getD k.toNat dG).loValue

/-- The three-`memcpy` element swap of `RRA.c` lines 636-638:
`tmpGroup = groups[u]; groups[u] = groups[v]; groups[v] = tmpGroup`. -/
def swapG (a : List Group) (u v : ℕ) : List Group :=
  (a.set u (a.getD v dG)).set v (a.getD u dG)

/-- The ascending scan of `RRA.c` line 626:
`while ((groups[i].loValue<x)&&(i<=j)) i++`, returning the final `i`. -/
def scanI (a : List Group) (x : ℚ) (j : ℤ) (i : ℤ) : ℤ :=
  if h : vAt a i < x ∧ i ≤ j then scanI a x j (i + 1) else i
termination_by (j + 1 - i).toNat
decreasing_by simp_wf; omega

/-- The descending scan of `RRA.c` line 630:
`while ((groups[j].loValue>x)&&(i<=j)) j--`, returning the final `j`. -/
def scanJ (a : List Group) (x : ℚ) (i : ℤ) (j : ℤ) : ℤ :=
  if h : x < vAt a j ∧ i ≤ j then scanJ a x i (j - 1) else j
termination_by (j + 1 - i).toNat
decreasing_by simp_wf; omega

theorem scanI_ge (a : List Group) (x : ℚ) (j i : ℤ) : i ≤ scanI a x j i := by
  rw [scanI]
  split
  · rename_i h
    have := scanI_ge a x j (i + 1)
    omega
  · exact le_refl i
termination_by (j + 1 - i).toNat
decreasing_by simp_wf; omega

theorem scanJ_le (a : List Group) (x : ℚ) (i j : ℤ) : scanJ a x i j ≤ j := by
  rw [scanJ]
  split
  · rename_i h
    have := scanJ_le a x i (j - 1)
    omega
  · exact le_refl j
termination_by (j + 1 - i).toNat
decreasing_by simp_wf; omega

/-- The Hoare partition loop of `RRA.c` lines 624-641: scan up, scan
down, and while `i <= j` swap `groups[i]` with `groups[j]` and step both
indices inward; returns the permuted array together with the final `i`
and `j`. -/
def partitionLoop (x : ℚ) (a : List Group) (i j : ℤ) : List Group × ℤ × ℤ :=
  if hij : i ≤ j then
    let i' := scanI a x j i
    let j' := scanJ a x i' j
    if hsw : i' ≤ j' then
      partitionLoop x (swapG a i'.toNat j'.toNat) (i' + 1) (j' - 1)
    else (a, i', j')
  else (a, i, j)
termination_by (j + 1 - i).toNat
decreasing_by
  simp_wf
  have h1 := scanI_ge a x j i
  have h2 := scanJ_le a x (scanI a x j i) j
  omega

theorem scanI_le_pivot (a : List Group) (x : ℚ) (j : ℤ) (m : ℤ)
    (hm : ¬ vAt a m < x) (i : ℤ) (him : i ≤ m) : scanI a x j i ≤ m := by
  rw [scanI]
  split
  · rename_i h
    rcases eq_or_lt_of_le him with rfl | hlt
    · exact absurd h.1 hm
    · exact scanI_le_pivot a x j m hm (i + 1) (by omega)
  · exact him
termination_by (m - i).toNat
decreasing_by simp_wf; omega

theorem scanJ_ge_pivot (a : List Group) (x : ℚ) (i : ℤ) (m : ℤ)
    (hm : ¬ x < vAt a m) (j : ℤ) (hmj : m ≤ j) : m ≤ scanJ a x i j := by
  rw [scanJ]
  split
  · rename_i h
    rcases eq_or_lt_of_le hmj with rfl | hlt
    · exact absurd h.1 hm
    · exact scanJ_ge_pivot a x i m hm (j - 1) (by omega)
  · exact hmj
termination_by (j - m).toNat
decreasing_by simp_wf; omega

theorem partition_mono (xv : ℚ) (a : List Group) (i j : ℤ) :
    i ≤ (partitionLoop xv a i j).2.1 ∧ (partitionLoop xv a i j).2.2 ≤ j := by
  rw [partitionLoop]
  split
  · rename_i hij
    simp only []
    split
    · rename_i hsw
      have h1 := scanI_ge a xv j i
      have h2 := scanJ_le a xv (scanI a xv j i) j
      have := partition_mono xv
        (swapG a (scanI a xv j i).toNat (scanJ a xv (scanI a xv j i) j).toNat)
        (scanI a xv j i + 1) (scanJ a xv (scanI a xv j i) j - 1)
      constructor <;> omega
    · exact ⟨scanI_ge a xv j i, scanJ_le a xv _ j⟩
  · exact ⟨le_refl i, le_refl j⟩
termination_by (j + 1 - i).toNat
decreasing_by
  simp_wf
  have h1 := scanI_ge a xv j i
  have h2 := scanJ_le a xv (scanI a xv j i) j
  omega

theorem partition_post (xv : ℚ) (a : List Group) (lo hi : ℤ) (hlh : lo ≤ hi) (m : ℤ)
    (hmlo : lo ≤ m) (hmhi : m ≤ hi) (hx : vAt a m = xv) :
    lo + 1 ≤ (partitionLoop xv a lo hi).2.1
    ∧ (partitionLoop xv a lo hi).2.2 ≤ hi - 1 := by
  rw [partitionLoop]
  split
  · simp only []
    have hi2 : scanI a xv hi lo ≤ m :=
      scanI_le_pivot a xv hi m (by rw [hx]; exact lt_irrefl xv) lo hmlo
    have hj2 : m ≤ scanJ a xv (scanI a xv hi lo) hi :=
      scanJ_ge_pivot a xv _ m (by rw [hx]; exact lt_irrefl xv) hi hmhi
    split
    · rename_i hsw
      have h1 := scanI_ge a xv hi lo
      have h2 := scanJ_le a xv (scanI a xv hi lo) hi
      have := partition_mono xv
        (swapG a (scanI a xv hi lo).toNat (scanJ a xv (scanI a xv hi lo) hi).toNat)
        (scanI a xv hi lo + 1) (scanJ a xv (scanI a xv hi lo) hi - 1)
      constructor <;> omega
    · rename_i hsw
      omega
  · omega

/-- `QuickSortGroupByLoValue` (`RRA.c` lines 612-647): the pivot is the
`loValue` of the middle element `groups[(lo+hi)/2]` (read before the
`hi<lo` guard, as in the C code); the range is partitioned by the Hoare
loop and the two sub-ranges `[lo, j]` and `[i, hi]` are sorted
recursively when non-trivial.  Lean's integer division is floor division
while C truncates toward zero; the two agree whenever `lo + hi ≥ 0`,
which holds in every call the program makes (`lo ≥ 0` always). -/
def qsGroupAux (a : List Group) (lo hi : ℤ) : List Group :=
  let x := vAt a ((lo + hi) / 2)
  if hlt : hi < lo then a
  else
    let p := partitionLoop x a lo hi
    let a1 := if h1 : lo < p.2.2 then qsGroupAux p.1 lo p.2.2 else p.1
    if h2 : p.2.1 < hi then qsGroupAux a1 p.2.1 hi else a1
termination_by (hi + 1 - lo).toNat
decreasing_by
  · simp_wf
    have := partition_post (vAt a ((lo + hi) / 2)) a lo hi (by omega) ((lo + hi) / 2)
      (by omega) (by omega) rfl
    omega
  · simp_wf
    have := partition_post (vAt a ((lo + hi) / 2)) a lo hi (by omega) ((lo + hi) / 2)
      (by omega) (by omega) rfl
    omega

/-- The call `QuickSortGroupByLoValue(groups, 0, groupNum-1)` made by
`ComputeFDR` (`RRA.c` line 583): sort the whole group array in place. -/
def QuickSortGroupByLoValue (l : List Group) : List Group :=
  qsGroupAux l 0 ((l.length : ℤ) - 1)

/-- `ComputeFDR` (`RRA.c` lines 535-609).  `s0` is the ambient state of
the process-wide random generator when the function is entered; the
function re-seeds it with the constant `123456` before drawing.  Returns
the groups (sorted by `loValue`, with calibrated FDRs) and the generator
state after the call. -/
def ComputeFDR (groups : List Group) (maxP : ℚ) (numOfRandPass : ℕ) (s0 : ℕ) :
    List Group × ℕ :=
  let _ := s0
  let gc := groups.length
  let scanPass := scanPassOf numOfRandPass gc
  let pp := poolPasses maxP groups scanPass (PlantSeeds 123456)
  let pool := QuicksortF pp.1
  let sg := QuickSortGroupByLoValue groups
  (monoSweep (clampLast (assignFdr pool gc 0 sg)), pp.2)

/-! ### Bounds of the modelled Beta CDF -/

theorem betaCdf_nonneg (a b : ℕ) (x : ℚ) : 0 ≤ BetaNoncentralCdf a b x := by
  unfold BetaNoncentralCdf
  split_ifs with h0 h1
  · exact le_refl 0
  · exact zero_le_one
  · have hx : 0 < x := lt_of_not_le h0
    have hx1 : x < 1 := lt_of_not_le h1
    apply Finset.sum_nonneg
    intro j _
    exact mul_nonneg (mul_nonneg (Nat.cast_nonneg _) (pow_nonneg hx.le _))
      (pow_nonneg (by linarith) _)

theorem betaCdf_le_one (a b : ℕ) (x : ℚ) : BetaNoncentralCdf a b x ≤ 1 := by
  unfold BetaNoncentralCdf
  split_ifs with h0 h1
  · exact zero_le_one
  · exact le_refl 1
  · have hx : 0 < x := lt_of_not_le h0
    have hx1 : x < 1 := lt_of_not_le h1
    have hsub : Finset.Icc a (a + b - 1) ⊆ Finset.range (a + b - 1 + 1) := by
      intro j hj
      rw [Finset.mem_range]
      have := (Finset.mem_Icc.mp hj).2
      omega
    refine le_trans (Finset.sum_le_sum_of_subset_of_nonneg hsub ?_) ?_
    · intro j _ _
      exact mul_nonneg (mul_nonneg (Nat.cast_nonneg _) (pow_nonneg hx.le _))
        (pow_nonneg (by linarith) _)
    · have hrw : ∀ j ∈ Finset.range (a + b - 1 + 1),
          (Nat.choose (a + b - 1) j : ℚ) * x ^ j * (1 - x) ^ (a + b - 1 - j)
            = x ^ j * (1 - x) ^ (a + b - 1 - j) * (Nat.choose (a + b - 1) j : ℚ) :=
        fun j _ => by ring
      rw [Finset.sum_congr rfl hrw, ← add_pow]
      have h1x : x + (1 - x) = 1 := by ring
      rw [h1x, one_pow]

theorem mem_cdfList_bounds {n : ℕ} : ∀ {l : List ℚ} {i : ℕ} {y : ℚ},
    y ∈ cdfList n i l → 0 ≤ y ∧ y ≤ 1 := by
  intro l
  induction l with
  | nil => intro i y hy; simp [cdfList] at hy
  | cons x xs ih =>
    intro i y hy
    simp only [cdfList, List.mem_cons] at hy
    rcases hy with h | h
    · exact h ▸ ⟨betaCdf_nonneg _ _ _, betaCdf_le_one _ _ _⟩
    · exact ih h

/-! ### Folded minimum -/

theorem foldl_min_le_init : ∀ (l : List ℚ) (a : ℚ), l.foldl min a ≤ a
  | [], a => le_refl a
  | x :: xs, a => le_trans (foldl_min_le_init xs (min a x)) (min_le_left a x)

theorem foldl_min_le_of_mem : ∀ (l : List ℚ) (a y : ℚ), y ∈ l → l.foldl min a ≤ y := by
  intro l
  induction l with
  | nil => intro a y h; simp at h
  | cons x xs ih =>
    intro a y h
    rcases List.mem_cons.mp h with rfl | h
    · exact le_trans (foldl_min_le_init xs (min a y)) (min_le_right a y)
    · exact ih (min a x) y h

theorem le_foldl_min : ∀ (l : List ℚ) (a c : ℚ), c ≤ a → (∀ y ∈ l, c ≤ y) →
    c ≤ l.foldl min a := by
  intro l
  induction l with
  | nil => intro a c h _; exact h
  | cons x xs ih =>
    intro a c hca hl
    exact ih _ _ (le_min hca (hl x (List.mem_cons_self x xs)))
      (fun y hy => hl y (List.mem_cons_of_mem x hy))

theorem foldl_min_eq_init_or_mem : ∀ (l : List ℚ) (a : ℚ),
    l.foldl min a = a ∨ l.foldl min a ∈ l := by
  intro l
  induction l with
  | nil => intro a; exact Or.inl rfl
  | cons x xs ih =>
    intro a
    rcases ih (min a x) with h | h
    · rcases le_total a x with hax | hxa
      · left; rw [List.foldl_cons, h, min_eq_left hax]
      · right
        rw [List.foldl_cons, h, min_eq_right hxa]
        exact List.mem_cons_self x xs
    · right
      rw [List.foldl_cons]
      exact List.mem_cons_of_mem x h

/-! ### The scan break index -/

theorem breakIdx_le_length (maxP : ℚ) : ∀ l : List ℚ, breakIdx maxP l ≤ l.length := by
  intro l
  induction l with
  | nil => simp [breakIdx]
  | cons x xs ih =>
    simp only [breakIdx, List.length_cons]
    split
    · exact Nat.zero_le _
    · exact Nat.succ_le_succ ih

theorem getD_le_of_lt_breakIdx (maxP : ℚ) : ∀ (l : List ℚ) (j : ℕ),
    j < breakIdx maxP l → l.getD j 0 ≤ maxP := by
  intro l
  induction l with
  | nil => intro j h; simp [breakIdx] at h
  | cons x xs ih =>
    intro j h
    simp only [breakIdx] at h
    split at h
    · omega
    · rename_i hx
      cases j with
      | zero => simpa using le_of_not_lt hx
      | succ j =>
        rw [List.getD_cons_succ]
        exact ih j (by omega)

theorem breakIdx_end (maxP : ℚ) : ∀ l : List ℚ,
    breakIdx maxP l = l.length ∨ maxP < l.getD (breakIdx maxP l) 0 := by
  intro l
  induction l with
  | nil => exact Or.inl rfl
  | cons x xs ih =>
    simp only [breakIdx]
    split
    · rename_i hx
      right
      simpa using hx
    · rcases ih with h | h
      · left; simp [h]
      · right; simpa using h

theorem breakIdx_mono {m1 m2 : ℚ} (h : m1 ≤ m2) : ∀ l : List ℚ,
    breakIdx m1 l ≤ breakIdx m2 l := by
  intro l
  induction l with
  | nil => exact le_refl 0
  | cons x xs ih =>
    simp only [breakIdx]
    by_cases h1 : m1 < x
    · rw [if_pos h1]
      exact Nat.zero_le _
    · rw [if_neg h1, if_neg (fun hc => h1 (lt_of_le_of_lt h hc))]
      exact Nat.succ_le_succ ih

/-! ### The lo-value loop as a folded minimum over the scanned CDFs -/

theorem cdfList_append (n : ℕ) : ∀ (l1 l2 : List ℚ) (i : ℕ),
    cdfList n i (l1 ++ l2) = cdfList n i l1 ++ cdfList n (i + l1.length) l2 := by
  intro l1
  induction l1 with
  | nil => intro l2 i; simp [cdfList]
  | cons x xs ih =>
    intro l2 i
    have hidx : i + (x :: xs).length = i + 1 + xs.length := by
      simp only [List.length_cons]
      omega
    calc cdfList n i ((x :: xs) ++ l2)
        = BetaNoncentralCdf (i + 1) (n - i) x :: cdfList n (i + 1) (xs ++ l2) := rfl
      _ = BetaNoncentralCdf (i + 1) (n - i) x
            :: (cdfList n (i + 1) xs ++ cdfList n (i + 1 + xs.length) l2) := by rw [ih]
      _ = cdfList n i (x :: xs) ++ cdfList n (i + (x :: xs).length) l2 := by
            rw [hidx]
            rfl

theorem loScanTail_eq (n : ℕ) (maxP : ℚ) : ∀ (xs : List ℚ) (i : ℕ) (acc : ℚ),
    loScanTail n maxP i xs acc
      = List.foldl min acc (cdfList n i (xs.take (breakIdx maxP xs))) := by
  intro xs
  induction xs with
  | nil => intro i acc; simp [loScanTail, breakIdx, cdfList]
  | cons x xs ih =>
    intro i acc
    simp only [loScanTail, breakIdx]
    split_ifs with hx
    · simp [cdfList]
    · rw [List.take_succ_cons]
      simp only [cdfList, List.foldl_cons]
      exact ih (i + 1) (min acc (BetaNoncentralCdf (i + 1) (n - i) x))

theorem computeLoValue_eq_foldl (p : List ℚ) (maxP : ℚ) :
    ComputeLoValue p maxP = List.foldl min 1 (scannedCdfs p maxP) := by
  unfold ComputeLoValue ComputeLoValueWithMem scannedCdfs stopIndex
  cases hq : QuicksortF p with
  | nil => simp [cdfList]
  | cons x xs =>
    simp only []
    rw [loScanTail_eq, Nat.add_comm 1 (breakIdx maxP xs), List.take_succ_cons]
    simp [cdfList]

theorem quicksortF_perm (p : List ℚ) : (QuicksortF p).Perm p :=
  List.perm_insertionSort _ p

theorem quicksortF_sorted (p : List ℚ) :
    List.Sorted (fun a b : ℚ => a ≤ b) (QuicksortF p) :=
  List.sorted_insertionSort _ p

theorem quicksortF_length (p : List ℚ) : (QuicksortF p).length = p.length :=
  (quicksortF_perm p).length_eq

theorem quicksortF_ne_nil {p : List ℚ} (hp : p ≠ []) : QuicksortF p ≠ [] := by
  intro h
  exact hp (List.length_eq_zero.mp (by rw [← quicksortF_length p, h, List.length_nil]))

theorem scannedCdfs_cons {p : List ℚ} (maxP : ℚ) {x : ℚ} {xs : List ℚ}
    (hq : QuicksortF p = x :: xs) :
    scannedCdfs p maxP
      = BetaNoncentralCdf 1 p.length x
          :: cdfList p.length 1 (xs.take (breakIdx maxP xs)) := by
  unfold scannedCdfs stopIndex
  rw [hq]
  show cdfList p.length 0 ((x :: xs).take (1 + breakIdx maxP xs)) = _
  rw [Nat.add_comm 1 (breakIdx maxP xs), List.take_succ_cons]
  rfl

theorem stopIndex_cons {p : List ℚ} (maxP : ℚ) {x : ℚ} {xs : List ℚ}
    (hq : QuicksortF p = x :: xs) :
    stopIndex p maxP = 1 + breakIdx maxP xs := by
  unfold stopIndex
  rw [hq]

/-- C1: for `n > 0` percentiles, `ComputeLoValue` sorts a copy ascending,
scans from index `0`, stopping at the first index `i > 0` whose sorted
percentile exceeds `maxPercentile` (index `0` is always scanned), at each
scanned `i` evaluates the central Beta CDF with shape `(i+1, n-i)` at the
`i`-th sorted percentile, and returns the minimum of those CDF values. -/
theorem computeLoValue_scan_min (p : List ℚ) (maxP : ℚ) (hp : p ≠ []) :
    (QuicksortF p).Perm p
    ∧ List.Sorted (fun a b : ℚ => a ≤ b) (QuicksortF p)
    ∧ 1 ≤ stopIndex p maxP
    ∧ stopIndex p maxP ≤ p.length
    ∧ (∀ i, 0 < i → i < stopIndex p maxP → (QuicksortF p).getD i 0 ≤ maxP)
    ∧ (stopIndex p maxP = p.length ∨ maxP < (QuicksortF p).getD (stopIndex p maxP) 0)
    ∧ ComputeLoValue p maxP ∈ scannedCdfs p maxP
    ∧ (∀ y ∈ scannedCdfs p maxP, ComputeLoValue p maxP ≤ y) := by
  obtain ⟨x, xs, hq⟩ : ∃ x xs, QuicksortF p = x :: xs := by
    cases hqq : QuicksortF p with
    | nil => exact absurd hqq (quicksortF_ne_nil hp)
    | cons x xs => exact ⟨x, xs, rfl⟩
  have hlen : xs.length + 1 = p.length := by
    have := quicksortF_length p
    rw [hq] at this
    simpa using this
  have hstop := stopIndex_cons maxP hq
  refine ⟨quicksortF_perm p, quicksortF_sorted p, ?_, ?_, ?_, ?_, ?_, ?_⟩
  · rw [hstop]; omega
  · rw [hstop]
    have := breakIdx_le_length maxP xs
    omega
  · intro i hi0 hi
    rw [hstop] at hi
    rw [hq]
    cases i with
    | zero => omega
    | succ j =>
      rw [List.getD_cons_succ]
      exact getD_le_of_lt_breakIdx maxP xs j (by omega)
  · rcases breakIdx_end maxP xs with h | h
    · left
      rw [hstop, h]
      omega
    · right
      rw [hstop, hq, Nat.add_comm 1 (breakIdx maxP xs), List.getD_cons_succ]
      exact h
  · rw [computeLoValue_eq_foldl, scannedCdfs_cons maxP hq]
    set c0 := BetaNoncentralCdf 1 p.length x with hc0
    set L := cdfList p.length 1 (xs.take (breakIdx maxP xs)) with hL
    rcases foldl_min_eq_init_or_mem (c0 :: L) 1 with h | h
    · have h1 : List.foldl min 1 (c0 :: L) ≤ c0 :=
        foldl_min_le_of_mem _ 1 c0 (List.mem_cons_self c0 L)
      have h2 : c0 ≤ 1 := betaCdf_le_one _ _ _
      have hc1 : c0 = 1 := le_antisymm h2 (h ▸ h1)
      rw [h, ← hc1]
      exact List.mem_cons_self c0 L
    · exact h
  · intro y hy
    rw [computeLoValue_eq_foldl]
    exact foldl_min_le_of_mem _ 1 y hy

/-- Witness for C1 at `p = [1/2]`, `maxPercentile = 1/4`. -/
theorem computeLoValue_scan_min_witness :
    ([(1 : ℚ)/2] ≠ ([] : List ℚ))
    ∧ ((QuicksortF [(1 : ℚ)/2]).Perm [(1 : ℚ)/2]
       ∧ List.Sorted (fun a b : ℚ => a ≤ b) (QuicksortF [(1 : ℚ)/2])
       ∧ 1 ≤ stopIndex [(1 : ℚ)/2] (1/4)
       ∧ stopIndex [(1 : ℚ)/2] (1/4) ≤ [(1 : ℚ)/2].length
       ∧ (∀ i, 0 < i → i < stopIndex [(1 : ℚ)/2] (1/4) →
            (QuicksortF [(1 : ℚ)/2]).getD i 0 ≤ 1/4)
       ∧ (stopIndex [(1 : ℚ)/2] (1/4) = [(1 : ℚ)/2].length
          ∨ (1 : ℚ)/4 < (QuicksortF [(1 : ℚ)/2]).getD (stopIndex [(1 : ℚ)/2] (1/4)) 0)
       ∧ ComputeLoValue [(1 : ℚ)/2] (1/4) ∈ scannedCdfs [(1 : ℚ)/2] (1/4)
       ∧ (∀ y ∈ scannedCdfs [(1 : ℚ)/2] (1/4), ComputeLoValue [(1 : ℚ)/2] (1/4) ≤ y)) :=
  ⟨by simp, computeLoValue_scan_min [(1 : ℚ)/2] (1/4) (by simp)⟩

/-- C7: for a fixed percentile array, the lo-value is antitone in
`maxPercentile`: a larger cutoff scans at least as many order statistics,
so the minimum can only decrease or stay equal. -/
theorem computeLoValue_antitone (p : List ℚ) (m1 m2 : ℚ) (hp : p ≠ [])
    (h12 : m1 ≤ m2) : ComputeLoValue p m2 ≤ ComputeLoValue p m1 := by
  rw [computeLoValue_eq_foldl, computeLoValue_eq_foldl]
  cases hq : QuicksortF p with
  | nil => exact absurd hq (quicksortF_ne_nil hp)
  | cons x xs =>
    rw [scannedCdfs_cons m1 hq, scannedCdfs_cons m2 hq]
    simp only [List.foldl_cons]
    have hb : breakIdx m1 xs ≤ breakIdx m2 xs := breakIdx_mono h12 xs
    have htake : xs.take (breakIdx m2 xs)
        = xs.take (breakIdx m1 xs)
          ++ (xs.drop (breakIdx m1 xs)).take (breakIdx m2 xs - breakIdx m1 xs) := by
      rw [← List.take_add]
      congr 1
      omega
    rw [htake, cdfList_append, List.foldl_append]
    exact foldl_min_le_init _ _

/-- Witness for C7 at `p = [0, 1]`, cutoffs `0 ≤ 1`. -/
theorem computeLoValue_antitone_witness :
    ([(0 : ℚ), 1] ≠ ([] : List ℚ)) ∧ (0 : ℚ) ≤ 1
    ∧ ComputeLoValue [(0 : ℚ), 1] 1 ≤ ComputeLoValue [(0 : ℚ), 1] 0 :=
  ⟨by simp, zero_le_one, computeLoValue_antitone [(0 : ℚ), 1] 0 1 (by simp) zero_le_one⟩

/-- C9: for percentiles in `[0,1]` and any cutoff, the lo-value lies in
`[0,1]`: it starts at `1.0` and is only lowered to Beta CDF values, which
are probabilities. -/
theorem computeLoValue_mem_unit (p : List ℚ) (maxP : ℚ) (hp : p ≠ [])
    (hb : ∀ x ∈ p, 0 ≤ x ∧ x ≤ 1) :
    0 ≤ ComputeLoValue p maxP ∧ ComputeLoValue p maxP ≤ 1 := by
  rw [computeLoValue_eq_foldl]
  constructor
  · apply le_foldl_min _ 1 0 zero_le_one
    intro y hy
    unfold scannedCdfs at hy
    exact (mem_cdfList_bounds hy).1
  · exact foldl_min_le_init _ _

/-- Witness for C9 at `p = [1/2]`, `maxPercentile = 1/4`. -/
theorem computeLoValue_mem_unit_witness :
    ([(1 : ℚ)/2] ≠ ([] : List ℚ))
    ∧ (∀ x ∈ [(1 : ℚ)/2], 0 ≤ x ∧ x ≤ 1)
    ∧ 0 ≤ ComputeLoValue [(1 : ℚ)/2] (1/4) ∧ ComputeLoValue [(1 : ℚ)/2] (1/4) ≤ 1 := by
  refine ⟨by simp, ?_, ?_⟩
  · intro x hx
    rw [List.mem_singleton] at hx
    subst hx
    norm_num
  · exact computeLoValue_mem_unit [(1 : ℚ)/2] (1/4) (by simp)
      (by intro x hx; rw [List.mem_singleton] at hx; subst hx; norm_num)

/-- C10: `ComputeLoValue` leaves the caller's percentile array unchanged:
the C function copies into a private buffer and sorts only the copy.  In
the embedding the caller-visible array is threaded through explicitly as
the first component of `ComputeLoValueWithMem`, and it equals the input;
the returned lo-value is computed from the sorted private copy. -/
theorem computeLoValue_frame (p : List ℚ) (maxP : ℚ) (hp : p ≠ []) :
    (ComputeLoValueWithMem p maxP).1 = p
    ∧ (ComputeLoValueWithMem p maxP).2 = ComputeLoValue p maxP :=
  ⟨rfl, rfl⟩

/-- Witness for C10 at `p = [3, 1, 2]`, `maxPercentile = 1/4`. -/
theorem computeLoValue_frame_witness :
    ([(3 : ℚ), 1, 2] ≠ ([] : List ℚ))
    ∧ (ComputeLoValueWithMem [(3 : ℚ), 1, 2] (1/4)).1 = [(3 : ℚ), 1, 2]
    ∧ (ComputeLoValueWithMem [(3 : ℚ), 1, 2] (1/4)).2
        = ComputeLoValue [(3 : ℚ), 1, 2] (1/4) :=
  ⟨by simp, computeLoValue_frame [(3 : ℚ), 1, 2] (1/4) (by simp)⟩

/-! ### Percentile computation -/

theorem epsQ_pos : 0 < epsQ := by norm_num [epsQ]

/-- C2: the item's percentile is `(below + above + 1) / (2N)` where
`below` counts list values strictly less than `value - 1e-9` and `above`
counts values strictly less than `value + 1e-9`; and on the list
`[10,20,30,40,50]` with value `30` the counts are `2` and `3` and the
percentile is `0.6`. -/
theorem percentile_formula :
    (∀ (values : List ℚ) (v : ℚ),
        percentileOf v (QuicksortF values)
          = ((values.countP (fun x => decide (x < v - epsQ)) : ℚ)
              + (values.countP (fun x => decide (x < v + epsQ)) : ℚ) + 1)
            / (2 * (values.length : ℚ)))
    ∧ bTreeSearchingF ((30 : ℚ) - epsQ) (QuicksortF [10, 20, 30, 40, 50]) = 2
    ∧ bTreeSearchingF ((30 : ℚ) + epsQ) (QuicksortF [10, 20, 30, 40, 50]) = 3
    ∧ percentileOf (30 : ℚ) (QuicksortF [10, 20, 30, 40, 50]) = 3/5 := by
  refine ⟨?_,
    by norm_num [bTreeSearchingF, QuicksortF, List.insertionSort, List.orderedInsert,
      List.countP_cons, epsQ],
    by norm_num [bTreeSearchingF, QuicksortF, List.insertionSort, List.orderedInsert,
      List.countP_cons, epsQ],
    by norm_num [percentileOf, bTreeSearchingF, QuicksortF, List.insertionSort,
      List.orderedInsert, List.countP_cons, epsQ]⟩
  intro values v
  unfold percentileOf bTreeSearchingF
  rw [(quicksortF_perm values).countP_eq, (quicksortF_perm values).countP_eq,
    quicksortF_length]
  ring

/-- C6 counterexample: on the list `[1 - 1e-10, 1]` the value `1` is the
strictly largest value, with no tie at the maximum, yet its computed
percentile is `3/4`, not `1` (the runner-up lies inside the `1e-9`
bracket). -/
theorem percentile_max_counterexample :
    ((1 : ℚ) - 1/10000000000 < 1)
    ∧ percentileOf 1 (QuicksortF [1 - 1/10000000000, 1]) = 3/4
    ∧ percentileOf 1 (QuicksortF [1 - 1/10000000000, 1]) ≠ 1 := by
  refine ⟨by norm_num, ?_, ?_⟩ <;>
    norm_num [percentileOf, bTreeSearchingF, QuicksortF, List.insertionSort,
      List.orderedInsert, List.countP_cons, epsQ]

/-- C6 (amended): for an item whose value occurs in its list,
`0 < percentile ≤ 1`; and the item with the strictly largest value gets
percentile exactly `1` provided its value is unique in the list and every
other value lies strictly below `value - 1e-9`. -/
theorem percentile_bounds (values : List ℚ) (v : ℚ) (hv : v ∈ values) :
    (0 < percentileOf v (QuicksortF values) ∧ percentileOf v (QuicksortF values) ≤ 1)
    ∧ (values.count v = 1 → (∀ x ∈ values, x ≠ v → x < v - epsQ) →
        percentileOf v (QuicksortF values) = 1) := by
  have hN : 0 < values.length := List.length_pos.mpr (List.ne_nil_of_mem hv)
  have hNq : (0 : ℚ) < (values.length : ℚ) := by exact_mod_cast hN
  have hden : (0 : ℚ) < (values.length : ℚ) * 2 := by linarith
  have hvnot : (decide (v < v - epsQ)) = false := by
    have := epsQ_pos
    simp only [decide_eq_false_iff_not, not_lt]
    linarith
  have hcount_eq : ∀ w : ℚ,
      bTreeSearchingF w (QuicksortF values) = values.countP (fun x => decide (x < w)) :=
    fun w => (quicksortF_perm values).countP_eq _
  have hlow_lt : values.countP (fun x => decide (x < v - epsQ)) < values.length := by
    rcases eq_or_lt_of_le (List.countP_le_length (fun x => decide (x < v - epsQ))
      (l := values)) with h | h
    · exfalso
      have := (List.countP_eq_length.mp h) v hv
      rw [hvnot] at this
      exact Bool.false_ne_true this
    · exact h
  have habove_le : values.countP (fun x => decide (x < v + epsQ)) ≤ values.length :=
    List.countP_le_length _
  constructor
  · constructor
    · unfold percentileOf
      rw [hcount_eq, hcount_eq, quicksortF_length]
      apply div_pos _ hden
      positivity
    · unfold percentileOf
      rw [hcount_eq, hcount_eq, quicksortF_length]
      rw [div_le_one hden]
      have hnat : values.countP (fun x => decide (x < v - epsQ))
          + values.countP (fun x => decide (x < v + epsQ)) + 1 ≤ 2 * values.length := by
        omega
      have hq2 := (Nat.cast_le (α := ℚ)).mpr hnat
      push_cast at hq2
      linarith
  · intro hcount hsep
    have heps := epsQ_pos
    have habove : values.countP (fun x => decide (x < v + epsQ)) = values.length := by
      rw [List.countP_eq_length]
      intro x hx
      rcases eq_or_ne x v with rfl | hne
      · simp only [decide_eq_true_iff]
        linarith
      · have := hsep x hx hne
        simp only [decide_eq_true_iff]
        linarith
    have hlow : values.countP (fun x => decide (x < v - epsQ)) + 1 = values.length := by
      have hsplit := List.length_eq_countP_add_countP
        (fun x => decide (x < v - epsQ)) (l := values)
      have hnotp : values.countP (fun a => decide (¬ decide (a < v - epsQ) = true))
          = values.count v := by
        rw [List.count]
        apply List.countP_congr
        intro x hx
        simp only [decide_eq_true_iff, beq_iff_eq]
        constructor
        · intro hge
          by_contra hne
          exact hge (hsep x hx hne)
        · rintro rfl
          intro hlt
          have := epsQ_pos
          linarith
      rw [hnotp, hcount] at hsplit
      omega
    unfold percentileOf
    rw [hcount_eq, hcount_eq, quicksortF_length, habove]
    have hlowq : (values.countP (fun x => decide (x < v - epsQ)) : ℚ)
        = (values.length : ℚ) - 1 := by
      have := (Nat.cast_inj (R := ℚ)).mpr hlow
      push_cast at this
      linarith
    rw [hlowq]
    field_simp
    ring

/-- Witness for C6 at list `[0, 1]`, value `1`. -/
theorem percentile_bounds_witness :
    ((1 : ℚ) ∈ [(0 : ℚ), 1])
    ∧ ((0 < percentileOf 1 (QuicksortF [(0 : ℚ), 1])
        ∧ percentileOf 1 (QuicksortF [(0 : ℚ), 1]) ≤ 1)
       ∧ ([(0 : ℚ), 1].count 1 = 1 →
            (∀ x ∈ [(0 : ℚ), 1], x ≠ 1 → x < 1 - epsQ) →
            percentileOf 1 (QuicksortF [(0 : ℚ), 1]) = 1)) :=
  ⟨by simp, percentile_bounds [(0 : ℚ), 1] 1 (by simp)⟩

/-! ### The synthetic null pool -/

theorem drawPercentiles_length : ∀ (k s : ℕ), ((drawPercentiles k s).1).length = k := by
  intro k
  induction k with
  | zero => intro s; rfl
  | succ k ih => intro s; simp [drawPercentiles, ih]

theorem poolOnePass_length (maxP : ℚ) : ∀ (groups : List Group) (s : ℕ),
    ((poolOnePass maxP groups s).1).length = groups.length := by
  intro groups
  induction groups with
  | nil => intro s; rfl
  | cons g rest ih => intro s; simp [poolOnePass, ih]

theorem poolPasses_length (maxP : ℚ) (groups : List Group) : ∀ (p s : ℕ),
    ((poolPasses maxP groups p s).1).length = p * groups.length := by
  intro p
  induction p with
  | zero => intro s; simp [poolPasses]
  | succ p ih =>
    intro s
    simp [poolPasses, List.length_append, poolOnePass_length, ih]
    rw [Nat.succ_mul]
    omega

theorem poolOnePass_getD (maxP : ℚ) : ∀ (groups : List Group) (s j : ℕ),
    j < groups.length →
    ∃ st, ((poolOnePass maxP groups s).1).getD j 0
      = ComputeLoValue ((drawPercentiles ((groups.getD j dG).itemNum) st).1) maxP := by
  intro groups
  induction groups with
  | nil => intro s j h; simp at h
  | cons g rest ih =>
    intro s j hj
    cases j with
    | zero => exact ⟨s, by simp [poolOnePass]⟩
    | succ j =>
      obtain ⟨st, hst⟩ := ih (drawPercentiles g.itemNum s).2 j
        (by simpa using Nat.lt_of_succ_lt_succ (by simpa using hj))
      exact ⟨st, by simpa [poolOnePass] using hst⟩

/-! ### Sorting the groups: correctness of the embedded quicksort -/

theorem getD_set_self (a : List Group) (u : ℕ) (g : Group) (h : u < a.length) :
    (a.set u g).getD u dG = g := by
  simp [List.getElem?_set_self h]

theorem getD_set_ne (a : List Group) (u k : ℕ) (g : Group) (h : u ≠ k) :
    (a.set u g).getD k dG = a.getD k dG := by
  simp [List.getElem?_set_ne h]

theorem getD_of_len_le (a : List Group) (k : ℕ) (h : a.length ≤ k) :
    a.getD k dG = dG := by
  simp [List.getD_eq_getElem?_getD, List.getElem?_eq_none h]

theorem getD_eq_getElem (a : List Group) (k : ℕ) (h : k < a.length) :
    a.getD k dG = a[k] := by
  simp [List.getD_eq_getElem?_getD, List.getElem?_eq_getElem h]

theorem swapG_length (a : List Group) (u v : ℕ) : (swapG a u v).length = a.length := by
  simp [swapG]

theorem swapG_getD_fst (a : List Group) (u v : ℕ) (hu : u < a.length) :
    (swapG a u v).getD u dG = a.getD v dG := by
  unfold swapG
  rcases eq_or_ne v u with rfl | hvu
  · exact getD_set_self _ v _ (by simpa using hu)
  · rw [getD_set_ne _ _ _ _ hvu, getD_set_self _ u _ hu]

theorem swapG_getD_snd (a : List Group) (u v : ℕ) (hv : v < a.length) :
    (swapG a u v).getD v dG = a.getD u dG := by
  unfold swapG
  exact getD_set_self _ v _ (by simpa using hv)

theorem swapG_getD_other (a : List Group) (u v k : ℕ) (hku : k ≠ u) (hkv : k ≠ v) :
    (swapG a u v).getD k dG = a.getD k dG := by
  unfold swapG
  rw [getD_set_ne _ _ _ _ (Ne.symm hkv), getD_set_ne _ _ _ _ (Ne.symm hku)]

theorem swapG_vals (a : List Group) (u v k : ℕ) :
    (swapG a u v).getD k dG = a.getD u dG ∨ (swapG a u v).getD k dG = a.getD v dG
    ∨ (swapG a u v).getD k dG = a.getD k dG := by
  rcases eq_or_ne k v with rfl | hkv
  · by_cases hk : k < a.length
    · left
      exact swapG_getD_snd a u k hk
    · right; right
      rw [getD_of_len_le _ _ (by rw [swapG_length]; omega), getD_of_len_le _ _ (by omega)]
  · rcases eq_or_ne k u with rfl | hku
    · by_cases hk : k < a.length
      · right; left
        exact swapG_getD_fst a k v hk
      · right; right
        rw [getD_of_len_le _ _ (by rw [swapG_length]; omega),
          getD_of_len_le _ _ (by omega)]
    · right; right
      exact swapG_getD_other a u v k hku hkv

theorem cons_set_perm (g : Group) : ∀ (t : List Group) (k : ℕ), k < t.length →
    List.Perm ((t.getD k dG) :: t.set k g) (g :: t) := by
  intro t
  induction t with
  | nil => intro k h; simp at h
  | cons h tt ih =>
    intro k hk
    cases k with
    | zero => simpa using List.Perm.swap g h tt
    | succ k =>
      have hk2 : k < tt.length := by simpa using hk
      have hrw : (h :: tt).getD (k + 1) dG :: (h :: tt).set (k + 1) g
          = tt.getD k dG :: h :: tt.set k g := by simp
      rw [hrw]
      have step1 : List.Perm (tt.getD k dG :: h :: tt.set k g)
          (h :: (tt.getD k dG :: tt.set k g)) := List.Perm.swap _ _ _
      have step2 : List.Perm (h :: (tt.getD k dG :: tt.set k g)) (h :: (g :: tt)) :=
        (ih k hk2).cons h
      have step3 : List.Perm (h :: (g :: tt)) (g :: h :: tt) := List.Perm.swap _ _ _
      exact (step1.trans step2).trans step3

theorem set_getD_self (a : List Group) (u : ℕ) : a.set u (a.getD u dG) = a := by
  apply List.ext_getElem?
  intro k
  rcases eq_or_ne u k with rfl | hne
  · by_cases hk : u < a.length
    · rw [List.getElem?_set_self hk]
      simp [List.getElem?_eq_getElem hk, List.getD_eq_getElem?_getD,
        List.getElem?_eq_getElem hk]
    · rw [List.set_eq_of_length_le (by omega)]
  · rw [List.getElem?_set_ne hne]

theorem swapG_cons_succ (hd : Group) (t : List Group) (u v : ℕ) :
    swapG (hd :: t) (u + 1) (v + 1) = hd :: swapG t u v := by
  unfold swapG
  simp

theorem swapG_perm_lt : ∀ (u : ℕ) (a : List Group) (v : ℕ), u < v → v < a.length →
    List.Perm (swapG a u v) a := by
  intro u
  induction u with
  | zero =>
    intro a v huv hv
    cases a with
    | nil => simp at hv
    | cons h t =>
      cases v with
      | zero => omega
      | succ v =>
        have hv2 : v < t.length := by simpa using hv
        have hrw : swapG (h :: t) 0 (v + 1) = t.getD v dG :: t.set v h := by
          unfold swapG
          simp
        rw [hrw]
        exact cons_set_perm h t v hv2
  | succ u ihu =>
    intro a v huv hv
    cases a with
    | nil => simp at hv
    | cons hd t =>
      cases v with
      | zero => omega
      | succ v =>
        have hv2 : v < t.length := by simpa using hv
        rw [swapG_cons_succ]
        exact (ihu t v (by omega) hv2).cons hd

theorem swapG_comm (a : List Group) (u v : ℕ) (hu : u < a.length) (hv : v < a.length) :
    swapG a u v = swapG a v u := by
  rcases eq_or_ne u v with rfl | hne
  · rfl
  · apply List.ext_getElem
    · rw [swapG_length, swapG_length]
    · intro k h1 h2
      rw [swapG_length] at h1
      rw [← getD_eq_getElem _ k (by rwa [swapG_length]),
        ← getD_eq_getElem _ k (by rwa [swapG_length])]
      rcases eq_or_ne k u with rfl | hku
      · rw [swapG_getD_fst a k v hu, swapG_getD_snd a v k hu]
      · rcases eq_or_ne k v with rfl | hkv
        · rw [swapG_getD_snd a u k hv, swapG_getD_fst a k u hv]
        · rw [swapG_getD_other a u v k hku hkv, swapG_getD_other a v u k hkv hku]

theorem swapG_perm (a : List Group) (u v : ℕ) (hu : u < a.length) (hv : v < a.length) :
    List.Perm (swapG a u v) a := by
  rcases Nat.lt_trichotomy u v with huv | rfl | hvu
  · exact swapG_perm_lt u a v huv hv
  · have h1 : swapG a u u = a := by
      unfold swapG
      rw [set_getD_self, set_getD_self]
    rw [h1]
  · rw [swapG_comm a u v hu hv]
    exact swapG_perm_lt v a u hvu hu

theorem scanI_lt (a : List Group) (x : ℚ) (j : ℤ) (i : ℤ) :
    ∀ k : ℤ, i ≤ k → k < scanI a x j i → vAt a k < x := by
  rw [scanI]
  split
  · rename_i h
    intro k hik hks
    rcases eq_or_lt_of_le hik with rfl | hlt
    · exact h.1
    · exact scanI_lt a x j (i + 1) k (by omega) hks
  · intro k hik hks
    omega
termination_by (j + 1 - i).toNat
decreasing_by simp_wf; omega

theorem scanI_stop (a : List Group) (x : ℚ) (j : ℤ) (i : ℤ) :
    ¬ (vAt a (scanI a x j i) < x ∧ scanI a x j i ≤ j) := by
  rw [scanI]
  split
  · exact scanI_stop a x j (i + 1)
  · rename_i h
    exact h
termination_by (j + 1 - i).toNat
decreasing_by simp_wf; omega

theorem scanJ_gt (a : List Group) (x : ℚ) (i : ℤ) (j : ℤ) :
    ∀ k : ℤ, scanJ a x i j < k → k ≤ j → x < vAt a k := by
  rw [scanJ]
  split
  · rename_i h
    intro k hks hkj
    rcases eq_or_lt_of_le hkj with rfl | hlt
    · exact h.1
    · exact scanJ_gt a x i (j - 1) k hks (by omega)
  · intro k hks hkj
    omega
termination_by (j + 1 - i).toNat
decreasing_by simp_wf; omega

theorem scanJ_stop (a : List Group) (x : ℚ) (i : ℤ) (j : ℤ) :
    ¬ (x < vAt a (scanJ a x i j) ∧ i ≤ scanJ a x i j) := by
  rw [scanJ]
  split
  · exact scanJ_stop a x i (j - 1)
  · rename_i h
    exact h
termination_by (j + 1 - i).toNat
decreasing_by simp_wf; omega

theorem scanI_le (a : List Group) (x : ℚ) (j : ℤ) (i : ℤ) (h : i ≤ j + 1) :
    scanI a x j i ≤ j + 1 := by
  rw [scanI]
  split
  · rename_i hc
    exact scanI_le a x j (i + 1) (by omega)
  · exact h
termination_by (j + 1 - i).toNat
decreasing_by simp_wf; omega

theorem scanJ_ge (a : List Group) (x : ℚ) (i : ℤ) (j : ℤ) (h : i - 1 ≤ j) :
    i - 1 ≤ scanJ a x i j := by
  rw [scanJ]
  split
  · rename_i hc
    exact scanJ_ge a x i (j - 1) (by omega)
  · exact h
termination_by (j + 1 - i).toNat
decreasing_by simp_wf; omega

theorem partition_length (xv : ℚ) (a : List Group) (i j : ℤ) :
    (partitionLoop xv a i j).1.length = a.length := by
  rw [partitionLoop]
  split
  · simp only []
    split
    · rw [partition_length]
      exact swapG_length a _ _
    · rfl
  · rfl
termination_by (j + 1 - i).toNat
decreasing_by
  simp_wf
  have h1 := scanI_ge a xv j i
  have h2 := scanJ_le a xv (scanI a xv j i) j
  omega

theorem partition_exit (xv : ℚ) (a : List Group) (i j : ℤ) :
    (partitionLoop xv a i j).2.2 < (partitionLoop xv a i j).2.1 := by
  rw [partitionLoop]
  split
  · simp only []
    split
    · exact partition_exit xv _ _ _
    · rename_i hsw
      simpa using hsw
  · rename_i hij
    simpa using hij
termination_by (j + 1 - i).toNat
decreasing_by
  simp_wf
  have h1 := scanI_ge a xv j i
  have h2 := scanJ_le a xv (scanI a xv j i) j
  omega

theorem partition_gap (xv : ℚ) : ∀ (a : List Group) (i j : ℤ), i - 2 ≤ j →
    (partitionLoop xv a i j).2.1 - 2 ≤ (partitionLoop xv a i j).2.2 := by
  intro a i j hgap
  rw [partitionLoop]
  split
  · rename_i hij
    simp only []
    split
    · rename_i hsw
      exact partition_gap xv _ _ _ (by omega)
    · rename_i hsw
      have h1 := scanI_ge a xv j i
      have h1b := scanI_le a xv j i (by omega)
      have h2 := scanJ_ge a xv (scanI a xv j i) j (by omega)
      simp only []
      omega
  · simpa using hgap
termination_by a i j => (j + 1 - i).toNat
decreasing_by
  simp_wf
  have h1 := scanI_ge a xv j i
  have h2 := scanJ_le a xv (scanI a xv j i) j
  omega

theorem partition_frame (xv : ℚ) (a : List Group) (i j : ℤ) (h0 : 0 ≤ i) :
    ∀ k : ℕ, ((k : ℤ) < i ∨ j < (k : ℤ)) →
      (partitionLoop xv a i j).1.getD k dG = a.getD k dG := by
  rw [partitionLoop]
  split
  · rename_i hij
    simp only []
    split
    · rename_i hsw
      intro k hk
      have h1 := scanI_ge a xv j i
      have h2 := scanJ_le a xv (scanI a xv j i) j
      have hrec := partition_frame xv
        (swapG a (scanI a xv j i).toNat (scanJ a xv (scanI a xv j i) j).toNat)
        (scanI a xv j i + 1) (scanJ a xv (scanI a xv j i) j - 1) (by omega) k (by omega)
      rw [hrec]
      exact swapG_getD_other a _ _ k (by omega) (by omega)
    · intro k hk
      rfl
  · intro k hk
    rfl
termination_by (j + 1 - i).toNat
decreasing_by
  simp_wf
  have h1 := scanI_ge a xv j i
  have h2 := scanJ_le a xv (scanI a xv j i) j
  omega

theorem partition_perm (xv : ℚ) (a : List Group) (i j : ℤ) (h0 : 0 ≤ i)
    (hlen : j < (a.length : ℤ)) : List.Perm (partitionLoop xv a i j).1 a := by
  rw [partitionLoop]
  split
  · rename_i hij
    simp only []
    split
    · rename_i hsw
      have h1 := scanI_ge a xv j i
      have h2 := scanJ_le a xv (scanI a xv j i) j
      have hrec := partition_perm xv
        (swapG a (scanI a xv j i).toNat (scanJ a xv (scanI a xv j i) j).toNat)
        (scanI a xv j i + 1) (scanJ a xv (scanI a xv j i) j - 1) (by omega)
        (by rw [swapG_length]; omega)
      exact hrec.trans (swapG_perm a _ _ (by omega) (by omega))
    · exact List.Perm.refl a
  · exact List.Perm.refl a
termination_by (j + 1 - i).toNat
decreasing_by
  simp_wf
  have h1 := scanI_ge a xv j i
  have h2 := scanJ_le a xv (scanI a xv j i) j
  omega

theorem partition_bound (xv : ℚ) (P : ℚ → Prop) (L H : ℤ) :
    ∀ (a : List Group) (i j : ℤ), L ≤ i → j ≤ H →
    (∀ k : ℤ, L ≤ k → k ≤ H → P (vAt a k)) →
    ∀ k : ℤ, L ≤ k → k ≤ H → P (vAt (partitionLoop xv a i j).1 k) := by
  intro a i j hLi hjH hP
  rw [partitionLoop]
  split
  · rename_i hij
    simp only []
    split
    · rename_i hsw
      have h1 := scanI_ge a xv j i
      have h2 := scanJ_le a xv (scanI a xv j i) j
      intro k hLk hkH
      refine partition_bound xv P L H _ _ _ (by omega) (by omega) ?_ k hLk hkH
      intro k2 hLk2 hk2H
      rcases swapG_vals a (scanI a xv j i).toNat (scanJ a xv (scanI a xv j i) j).toNat
        k2.toNat with hv | hv | hv
      · show P ((swapG a _ _).getD k2.toNat dG).loValue
        rw [hv]
        exact hP (scanI a xv j i) (by omega) (by omega)
      · show P ((swapG a _ _).getD k2.toNat dG).loValue
        rw [hv]
        exact hP (scanJ a xv (scanI a xv j i) j) (by omega) (by omega)
      · show P ((swapG a _ _).getD k2.toNat dG).loValue
        rw [hv]
        exact hP k2 hLk2 hk2H
    · exact hP
  · exact hP
termination_by a i j => (j + 1 - i).toNat
decreasing_by
  simp_wf
  have h1 := scanI_ge a xv j i
  have h2 := scanJ_le a xv (scanI a xv j i) j
  omega

theorem partition_inv (xv : ℚ) (lo hi : ℤ) (h0lo : 0 ≤ lo) :
    ∀ (a : List Group) (i j : ℤ), lo ≤ i → j < (a.length : ℤ) →
    (∀ k : ℤ, lo ≤ k → k < i → vAt a k ≤ xv) →
    (∀ k : ℤ, j < k → k ≤ hi → xv ≤ vAt a k) →
    (∀ k : ℤ, lo ≤ k → k < (partitionLoop xv a i j).2.1 →
      vAt (partitionLoop xv a i j).1 k ≤ xv)
    ∧ (∀ k : ℤ, (partitionLoop xv a i j).2.2 < k → k ≤ hi →
      xv ≤ vAt (partitionLoop xv a i j).1 k) := by
  intro a i j hloi hjlen hlo hhi
  rw [partitionLoop]
  split
  · rename_i hij
    simp only []
    split
    · rename_i hsw
      have h1 := scanI_ge a xv j i
      have h2 := scanJ_le a xv (scanI a xv j i) j
      have hstopI := scanI_stop a xv j i
      have hstopJ := scanJ_stop a xv (scanI a xv j i) j
      have hIlt := scanI_lt a xv j i
      have hJgt := scanJ_gt a xv (scanI a xv j i) j
      have hvalI : xv ≤ vAt a (scanI a xv j i) := by
        rcases not_and_or.mp hstopI with h | h
        · exact le_of_not_lt h
        · omega
      have hvalJ : vAt a (scanJ a xv (scanI a xv j i) j) ≤ xv := by
        rcases not_and_or.mp hstopJ with h | h
        · exact le_of_not_lt h
        · omega
      have hswfst : vAt (swapG a (scanI a xv j i).toNat
            (scanJ a xv (scanI a xv j i) j).toNat) (scanI a xv j i)
          = vAt a (scanJ a xv (scanI a xv j i) j) := by
        show ((swapG a _ _).getD (scanI a xv j i).toNat dG).loValue = _
        rw [swapG_getD_fst a _ _ (by omega)]
        rfl
      have hswsnd : vAt (swapG a (scanI a xv j i).toNat
            (scanJ a xv (scanI a xv j i) j).toNat) (scanJ a xv (scanI a xv j i) j)
          = vAt a (scanI a xv j i) := by
        show ((swapG a _ _).getD (scanJ a xv (scanI a xv j i) j).toNat dG).loValue = _
        rw [swapG_getD_snd a _ _ (by omega)]
        rfl
      have hswother : ∀ k : ℤ, 0 ≤ k → k ≠ scanI a xv j i →
          k ≠ scanJ a xv (scanI a xv j i) j →
          vAt (swapG a (scanI a xv j i).toNat
            (scanJ a xv (scanI a xv j i) j).toNat) k = vAt a k := by
        intro k hk0 hki hkj
        show ((swapG a _ _).getD k.toNat dG).loValue = _
        rw [swapG_getD_other a _ _ k.toNat (by omega) (by omega)]
        rfl
      apply partition_inv xv lo hi h0lo _ _ _ (by omega) (by rw [swapG_length]; omega)
      · intro k hlok hki
        rcases eq_or_lt_of_le (show k ≤ scanI a xv j i from by omega) with rfl | hklt
        · rw [hswfst]
          exact hvalJ
        · rw [hswother k (by omega) (by omega) (by omega)]
          rcases lt_or_le k i with hk | hk
          · exact hlo k hlok hk
          · exact le_of_lt (hIlt k hk hklt)
      · intro k hkj hkhi
        rcases eq_or_lt_of_le (show scanJ a xv (scanI a xv j i) j ≤ k from by omega)
          with rfl | hkgt
        · rw [hswsnd]
          exact hvalI
        · rw [hswother k (by omega) (by omega) (by omega)]
          rcases le_or_lt k j with hk | hk
          · exact le_of_lt (hJgt k hkgt hk)
          · exact hhi k hk hkhi
    · rename_i hsw
      have h1 := scanI_ge a xv j i
      have h2 := scanJ_le a xv (scanI a xv j i) j
      have hIlt := scanI_lt a xv j i
      have hJgt := scanJ_gt a xv (scanI a xv j i) j
      constructor
      · intro k hlok hki
        rcases lt_or_le k i with hk | hk
        · exact hlo k hlok hk
        · exact le_of_lt (hIlt k hk hki)
      · intro k hkj hkhi
        rcases le_or_lt k j with hk | hk
        · exact le_of_lt (hJgt k hkj hk)
        · exact hhi k hk hkhi
  · exact ⟨hlo, hhi⟩
termination_by a i j => (j + 1 - i).toNat
decreasing_by
  simp_wf
  have h1 := scanI_ge a xv j i
  have h2 := scanJ_le a xv (scanI a xv j i) j
  omega

theorem qs_base (a : List Group) (lo hi : ℤ) (hlt : hi < lo) :
    qsGroupAux a lo hi = a := by
  rw [qsGroupAux]
  simp only [dif_pos hlt]

theorem qs_master : ∀ (n : ℕ) (a : List Group) (lo hi : ℤ),
    (hi + 1 - lo).toNat ≤ n → 0 ≤ lo → hi < (a.length : ℤ) →
    (qsGroupAux a lo hi).length = a.length
    ∧ List.Perm (qsGroupAux a lo hi) a
    ∧ (∀ k : ℕ, ((k : ℤ) < lo ∨ hi < (k : ℤ)) →
        (qsGroupAux a lo hi).getD k dG = a.getD k dG)
    ∧ (∀ P : ℚ → Prop, (∀ k : ℤ, lo ≤ k → k ≤ hi → P (vAt a k)) →
        ∀ k : ℤ, lo ≤ k → k ≤ hi → P (vAt (qsGroupAux a lo hi) k))
    ∧ (∀ k : ℤ, lo ≤ k → k < hi →
        vAt (qsGroupAux a lo hi) k ≤ vAt (qsGroupAux a lo hi) (k + 1)) := by
  intro n
  induction n with
  | zero =>
    intro a lo hi hn h0 hlen
    have hlt : hi < lo := by omega
    rw [qs_base a lo hi hlt]
    exact ⟨rfl, List.Perm.refl a, fun k hk => rfl, fun P hP k h1 h2 => hP k h1 h2,
      fun k h1 h2 => by omega⟩
  | succ n ih =>
    intro a lo hi hn h0 hlen
    by_cases hlt : hi < lo
    · rw [qs_base a lo hi hlt]
      exact ⟨rfl, List.Perm.refl a, fun k hk => rfl, fun P hP k h1 h2 => hP k h1 h2,
        fun k h1 h2 => by omega⟩
    · rw [qsGroupAux]
      simp only [dif_neg hlt, dite_eq_ite]
      set xv := vAt a ((lo + hi) / 2) with hxv
      set p := partitionLoop xv a lo hi with hp
      set a1 := if lo < p.2.2 then qsGroupAux p.1 lo p.2.2 else p.1 with ha1
      set r := if p.2.1 < hi then qsGroupAux a1 p.2.1 hi else a1 with hr
      have hpost : lo + 1 ≤ p.2.1 ∧ p.2.2 ≤ hi - 1 := by
        rw [hp]
        exact partition_post xv a lo hi (by omega) ((lo + hi) / 2) (by omega)
          (by omega) rfl
      have hexit : p.2.2 < p.2.1 := by
        rw [hp]
        exact partition_exit xv a lo hi
      have hgap : p.2.1 - 2 ≤ p.2.2 := by
        rw [hp]
        exact partition_gap xv a lo hi (by omega)
      have hlenp : p.1.length = a.length := by
        rw [hp]
        exact partition_length xv a lo hi
      have hpermp : List.Perm p.1 a := by
        rw [hp]
        exact partition_perm xv a lo hi h0 (by omega)
      have hframep : ∀ k : ℕ, ((k : ℤ) < lo ∨ hi < (k : ℤ)) →
          p.1.getD k dG = a.getD k dG := by
        rw [hp]
        exact partition_frame xv a lo hi h0
      have hinv := partition_inv xv lo hi h0 a lo hi (le_refl lo) (by omega)
        (fun k h1 h2 => by omega) (fun k h1 h2 => by omega)
      rw [← hp] at hinv
      have hboundp : ∀ P : ℚ → Prop, (∀ k : ℤ, lo ≤ k → k ≤ hi → P (vAt a k)) →
          ∀ k : ℤ, lo ≤ k → k ≤ hi → P (vAt p.1 k) := by
        intro P hP
        rw [hp]
        exact partition_bound xv P lo hi a lo hi (le_refl _) (le_refl _) hP
      have H1 : a1.length = p.1.length ∧ List.Perm a1 p.1
          ∧ (∀ k : ℕ, ((k : ℤ) < lo ∨ p.2.2 < (k : ℤ)) → a1.getD k dG = p.1.getD k dG)
          ∧ (∀ P : ℚ → Prop, (∀ k : ℤ, lo ≤ k → k ≤ p.2.2 → P (vAt p.1 k)) →
              ∀ k : ℤ, lo ≤ k → k ≤ p.2.2 → P (vAt a1 k))
          ∧ (∀ k : ℤ, lo ≤ k → k < p.2.2 → vAt a1 k ≤ vAt a1 (k + 1)) := by
        rw [ha1]
        by_cases hc1 : lo < p.2.2
        · rw [if_pos hc1]
          exact ih p.1 lo p.2.2 (by omega) h0 (by omega)
        · rw [if_neg hc1]
          exact ⟨rfl, List.Perm.refl _, fun k hk => rfl, fun P hP k h1 h2 => hP k h1 h2,
            fun k h1 h2 => by omega⟩
      obtain ⟨A1len, A1perm, A1frame, A1bound, A1sorted⟩ := H1
      have H2 : r.length = a1.length ∧ List.Perm r a1
          ∧ (∀ k : ℕ, ((k : ℤ) < p.2.1 ∨ hi < (k : ℤ)) → r.getD k dG = a1.getD k dG)
          ∧ (∀ P : ℚ → Prop, (∀ k : ℤ, p.2.1 ≤ k → k ≤ hi → P (vAt a1 k)) →
              ∀ k : ℤ, p.2.1 ≤ k → k ≤ hi → P (vAt r k))
          ∧ (∀ k : ℤ, p.2.1 ≤ k → k < hi → vAt r k ≤ vAt r (k + 1)) := by
        rw [hr]
        by_cases hc2 : p.2.1 < hi
        · rw [if_pos hc2]
          exact ih a1 p.2.1 hi (by omega) (by omega) (by omega)
        · rw [if_neg hc2]
          exact ⟨rfl, List.Perm.refl _, fun k hk => rfl, fun P hP k h1 h2 => hP k h1 h2,
            fun k h1 h2 => by omega⟩
      obtain ⟨A2len, A2perm, A2frame, A2bound, A2sorted⟩ := H2
      have A1frameV : ∀ k : ℤ, 0 ≤ k → (k < lo ∨ p.2.2 < k) → vAt a1 k = vAt p.1 k := by
        intro k hk0 hk
        show (a1.getD k.toNat dG).loValue = (p.1.getD k.toNat dG).loValue
        rw [A1frame k.toNat (by omega)]
      have A2frameV : ∀ k : ℤ, 0 ≤ k → (k < p.2.1 ∨ hi < k) → vAt r k = vAt a1 k := by
        intro k hk0 hk
        show (r.getD k.toNat dG).loValue = (a1.getD k.toNat dG).loValue
        rw [A2frame k.toNat (by omega)]
      have F1 : ∀ k : ℤ, lo ≤ k → k < p.2.1 → vAt a1 k ≤ xv := by
        intro k h1 h2
        rcases le_or_lt k p.2.2 with hk | hk
        · exact A1bound (fun q => q ≤ xv)
            (fun k2 hk1 hk2 => hinv.1 k2 hk1 (by omega)) k h1 hk
        · rw [A1frameV k (by omega) (Or.inr hk)]
          exact hinv.1 k h1 h2
      have F2 : ∀ k : ℤ, p.2.2 < k → k ≤ hi → xv ≤ vAt a1 k := by
        intro k h1 h2
        rw [A1frameV k (by omega) (Or.inr h1)]
        exact hinv.2 k h1 h2
      have G1 : ∀ k : ℤ, lo ≤ k → k < p.2.1 → vAt r k ≤ xv := by
        intro k h1 h2
        rw [A2frameV k (by omega) (Or.inl h2)]
        exact F1 k h1 h2
      have G2 : ∀ k : ℤ, p.2.2 < k → k ≤ hi → xv ≤ vAt r k := by
        intro k h1 h2
        rcases lt_or_le k p.2.1 with hk | hk
        · rw [A2frameV k (by omega) (Or.inl hk)]
          exact F2 k h1 h2
        · exact A2bound (fun q => xv ≤ q)
            (fun k2 hk1 hk2 => F2 k2 (by omega) hk2) k hk h2
      refine ⟨?_, ?_, ?_, ?_, ?_⟩
      · rw [A2len, A1len, hlenp]
      · exact (A2perm.trans A1perm).trans hpermp
      · intro k hk
        rw [A2frame k (by omega), A1frame k (by omega), hframep k (by omega)]
      · intro P hP k h1 h2
        have hPp : ∀ k : ℤ, lo ≤ k → k ≤ hi → P (vAt p.1 k) := hboundp P hP
        have hPa1 : ∀ k : ℤ, lo ≤ k → k ≤ hi → P (vAt a1 k) := by
          intro k2 hk1 hk2
          rcases le_or_lt k2 p.2.2 with hk | hk
          · exact A1bound P (fun k3 h3 h4 => hPp k3 h3 (by omega)) k2 hk1 hk
          · rw [A1frameV k2 (by omega) (Or.inr hk)]
            exact hPp k2 hk1 hk2
        rcases lt_or_le k p.2.1 with hk | hk
        · rw [A2frameV k (by omega) (Or.inl hk)]
          exact hPa1 k h1 h2
        · exact A2bound P (fun k3 h3 h4 => hPa1 k3 (by omega) h4) k hk h2
      · intro k h1 h2
        rcases le_or_lt (k + 1) p.2.2 with hk | hk
        · have e1 : vAt r k = vAt a1 k := A2frameV k (by omega) (Or.inl (by omega))
          have e2 : vAt r (k + 1) = vAt a1 (k + 1) :=
            A2frameV (k + 1) (by omega) (Or.inl (by omega))
          rw [e1, e2]
          exact A1sorted k h1 (by omega)
        · rcases le_or_lt p.2.1 k with hk2 | hk2
          · exact A2sorted k hk2 h2
          · exact le_trans (G1 k h1 hk2) (G2 (k + 1) (by omega) (by omega))

theorem chain_of_getD {R : Group → Group → Prop} : ∀ (l : List Group),
    (∀ k : ℕ, k + 1 < l.length → R (l.getD k dG) (l.getD (k + 1) dG)) →
    List.Chain' R l := by
  intro l
  induction l with
  | nil => intro _; exact List.chain'_nil
  | cons a rest ih =>
    intro h
    cases rest with
    | nil => exact List.chain'_singleton a
    | cons b t =>
      rw [List.chain'_cons]
      constructor
      · simpa using h 0 (by simp)
      · apply ih
        intro k hk
        simpa using h (k + 1) (by simpa using Nat.succ_lt_succ hk)

theorem sortGroups_perm (l : List Group) : (QuickSortGroupByLoValue l).Perm l := by
  unfold QuickSortGroupByLoValue
  exact (qs_master ((l.length : ℤ) - 1 + 1 - 0).toNat l 0 ((l.length : ℤ) - 1)
    (le_refl _) (by omega) (by omega)).2.1

theorem sortGroups_length (l : List Group) :
    (QuickSortGroupByLoValue l).length = l.length :=
  (sortGroups_perm l).length_eq

theorem sortGroups_sorted (l : List Group) :
    List.Sorted (fun a b : Group => a.loValue ≤ b.loValue) (QuickSortGroupByLoValue l) := by
  have hm := qs_master ((l.length : ℤ) - 1 + 1 - 0).toNat l 0 ((l.length : ℤ) - 1)
    (le_refl _) (by omega) (by omega)
  obtain ⟨hlen, hperm, hframe, hbound, hsort⟩ := hm
  rw [List.Sorted, ← List.chain'_iff_pairwise]
  apply chain_of_getD
  intro k hk
  have hklen : (k : ℤ) < (l.length : ℤ) - 1 := by
    have h2 : (QuickSortGroupByLoValue l).length = l.length := sortGroups_length l
    omega
  have hs := hsort (k : ℤ) (by omega) hklen
  have e1 : ((k : ℤ)).toNat = k := by omega
  have e2 : ((k : ℤ) + 1).toNat = k + 1 := by omega
  unfold QuickSortGroupByLoValue
  show ((qsGroupAux l 0 ((l.length : ℤ) - 1)).getD k dG).loValue
    ≤ ((qsGroupAux l 0 ((l.length : ℤ) - 1)).getD (k + 1) dG).loValue
  unfold vAt at hs
  rw [e1, e2] at hs
  exact hs

/-! ### The FDR assignment loop -/

theorem assignFdr_length (pool : List ℚ) (gc : ℕ) : ∀ (l : List Group) (i0 : ℕ),
    (assignFdr pool gc i0 l).length = l.length := by
  intro l
  induction l with
  | nil => intro i0; rfl
  | cons g rest ih => intro i0; simp [assignFdr, ih]

theorem assignFdr_getD (pool : List ℚ) (gc : ℕ) : ∀ (l : List Group) (i0 j : ℕ),
    j < l.length →
    ((assignFdr pool gc i0 l).getD j dG).fdr
      = fdrOf pool gc (i0 + j) ((l.getD j dG).loValue) := by
  intro l
  induction l with
  | nil => intro i0 j h; simp at h
  | cons g rest ih =>
    intro i0 j hj
    cases j with
    | zero => simp [assignFdr]
    | succ j =>
      have hlt : j < rest.length := by simpa using Nat.lt_of_succ_lt_succ (by simpa using hj)
      have := ih (i0 + 1) j hlt
      simp only [assignFdr, List.getD_cons_succ]
      rw [show i0 + (j + 1) = i0 + 1 + j from by omega]
      exact this

theorem assignFdr_map_lo (pool : List ℚ) (gc : ℕ) : ∀ (l : List Group) (i0 : ℕ),
    (assignFdr pool gc i0 l).map Group.loValue = l.map Group.loValue := by
  intro l
  induction l with
  | nil => intro i0; rfl
  | cons g rest ih => intro i0; simp [assignFdr, ih]

theorem fdrOf_nonneg (pool : List ℚ) (gc i : ℕ) (lo : ℚ) : 0 ≤ fdrOf pool gc i lo := by
  unfold fdrOf
  apply mul_nonneg
  · apply div_nonneg
    · apply div_nonneg
      · exact div_nonneg (Nat.cast_nonneg _) (by norm_num)
      · exact Nat.cast_nonneg _
    · positivity
  · exact Nat.cast_nonneg _

theorem assignFdr_fdr_nonneg (pool : List ℚ) (gc : ℕ) : ∀ (l : List Group) (i0 : ℕ),
    ∀ g ∈ assignFdr pool gc i0 l, 0 ≤ g.fdr := by
  intro l
  induction l with
  | nil => intro i0 g hg; simp [assignFdr] at hg
  | cons gg rest ih =>
    intro i0 g hg
    rcases List.mem_cons.mp hg with rfl | hmem
    · exact fdrOf_nonneg _ _ _ _
    · exact ih (i0 + 1) g hmem

/-! ### The clamp of the last FDR -/

theorem clampLast_length : ∀ l : List Group, (clampLast l).length = l.length := by
  intro l
  induction l with
  | nil => rfl
  | cons g rest ih =>
    cases rest with
    | nil => rfl
    | cons g₂ rest₂ => simpa [clampLast] using ih

theorem clampLast_map_lo : ∀ l : List Group,
    (clampLast l).map Group.loValue = l.map Group.loValue := by
  intro l
  induction l with
  | nil => rfl
  | cons g rest ih =>
    cases rest with
    | nil =>
      simp only [clampLast, List.map_cons, List.map_nil]
      split <;> rfl
    | cons g₂ rest₂ => simpa [clampLast] using ih

theorem clampLast_fdr_nonneg : ∀ l : List Group, (∀ g ∈ l, 0 ≤ g.fdr) →
    ∀ g ∈ clampLast l, 0 ≤ g.fdr := by
  intro l
  induction l with
  | nil => intro _ g hg; simp [clampLast] at hg
  | cons gg rest ih =>
    intro hl g hg
    cases rest with
    | nil =>
      simp only [clampLast, List.mem_singleton] at hg
      subst hg
      split
      · norm_num
      · exact hl gg (List.mem_cons_self _ _)
    | cons g₂ rest₂ =>
      simp only [clampLast, List.mem_cons] at hg
      rcases hg with rfl | hmem
      · exact hl g (List.mem_cons_self _ _)
      · exact ih (fun x hx => hl x (List.mem_cons_of_mem _ hx)) g hmem

theorem clampLast_getLast : ∀ l : List Group, l ≠ [] →
    ∃ gl, (clampLast l).getLast? = some gl ∧ gl.fdr ≤ 1 := by
  intro l
  induction l with
  | nil => intro h; exact absurd rfl h
  | cons g rest ih =>
    intro _
    cases rest with
    | nil =>
      refine ⟨if g.fdr > 1 then { g with fdr := 1 } else g, rfl, ?_⟩
      split_ifs with h
      · exact le_refl 1
      · exact le_of_not_lt h
    | cons g₂ rest₂ =>
      obtain ⟨gl, hgl, hle⟩ := ih (by simp)
      refine ⟨gl, ?_, hle⟩
      have hne : clampLast (g₂ :: rest₂) ≠ [] := by
        intro hc
        have := clampLast_length (g₂ :: rest₂)
        rw [hc] at this
        simp at this
      cases hc : clampLast (g₂ :: rest₂) with
      | nil => exact absurd hc hne
      | cons c cs =>
        show (clampLast (g :: g₂ :: rest₂)).getLast? = some gl
        have hcl : clampLast (g :: g₂ :: rest₂) = g :: c :: cs := by
          rw [show clampLast (g :: g₂ :: rest₂) = g :: clampLast (g₂ :: rest₂) from rfl, hc]
        rw [hcl, List.getLast?_cons_cons, ← hc]
        exact hgl

/-! ### The monotone smoothing sweep -/

theorem monoSweep_length : ∀ l : List Group, (monoSweep l).length = l.length := by
  intro l
  induction l with
  | nil => rfl
  | cons g rest ih =>
    cases rest with
    | nil => rfl
    | cons g₂ rest₂ => simpa [monoSweep] using ih

theorem monoSweep_cons_cons (g g₂ : Group) (rest : List Group) {c : Group}
    {cs : List Group} (hm : monoSweep (g₂ :: rest) = c :: cs) :
    monoSweep (g :: g₂ :: rest)
      = (if g.fdr > c.fdr then { g with fdr := c.fdr } else g) :: c :: cs := by
  simp [monoSweep, hm]

theorem monoSweep_ne_nil {l : List Group} (h : l ≠ []) : monoSweep l ≠ [] := by
  intro hc
  have := monoSweep_length l
  rw [hc] at this
  exact h (List.length_eq_zero.mp this.symm)

theorem monoSweep_chain : ∀ l : List Group,
    List.Chain' (fun a b : Group => a.fdr ≤ b.fdr) (monoSweep l) := by
  intro l
  induction l with
  | nil => simp [monoSweep]
  | cons g rest ih =>
    cases rest with
    | nil => simp [monoSweep]
    | cons g₂ rest₂ =>
      cases hm : monoSweep (g₂ :: rest₂) with
      | nil => exact absurd hm (monoSweep_ne_nil (by simp))
      | cons c cs =>
        rw [monoSweep_cons_cons g g₂ rest₂ hm, List.chain'_cons]
        constructor
        · split_ifs with hgc
          · simp
          · exact le_of_not_lt hgc
        · rw [← hm]
          exact ih

theorem monoSweep_map_lo : ∀ l : List Group,
    (monoSweep l).map Group.loValue = l.map Group.loValue := by
  intro l
  induction l with
  | nil => rfl
  | cons g rest ih =>
    cases rest with
    | nil => rfl
    | cons g₂ rest₂ =>
      cases hm : monoSweep (g₂ :: rest₂) with
      | nil => exact absurd hm (monoSweep_ne_nil (by simp))
      | cons c cs =>
        have hmap : (c :: cs).map Group.loValue = (g₂ :: rest₂).map Group.loValue := by
          rw [← hm]
          exact ih
        have hlo : (if g.fdr > c.fdr then { g with fdr := c.fdr } else g).loValue
            = g.loValue := by
          split <;> rfl
        calc (monoSweep (g :: g₂ :: rest₂)).map Group.loValue
            = ((if g.fdr > c.fdr then { g with fdr := c.fdr } else g)
                :: c :: cs).map Group.loValue := by
              rw [monoSweep_cons_cons g g₂ rest₂ hm]
          _ = g.loValue :: (c :: cs).map Group.loValue := by rw [List.map_cons, hlo]
          _ = g.loValue :: (g₂ :: rest₂).map Group.loValue := by rw [hmap]
          _ = (g :: g₂ :: rest₂).map Group.loValue := rfl

theorem monoSweep_fdr_nonneg : ∀ l : List Group, (∀ g ∈ l, 0 ≤ g.fdr) →
    ∀ g ∈ monoSweep l, 0 ≤ g.fdr := by
  intro l
  induction l with
  | nil => intro _ g hg; simp [monoSweep] at hg
  | cons gg rest ih =>
    intro hl g hg
    cases rest with
    | nil =>
      simp only [monoSweep, List.mem_singleton] at hg
      subst hg
      exact hl _ (List.mem_cons_self _ _)
    | cons g₂ rest₂ =>
      cases hm : monoSweep (g₂ :: rest₂) with
      | nil => exact absurd hm (monoSweep_ne_nil (by simp))
      | cons c cs =>
        have hrest : ∀ x ∈ g₂ :: rest₂, 0 ≤ x.fdr :=
          fun x hx => hl x (List.mem_cons_of_mem _ hx)
        rw [monoSweep_cons_cons gg g₂ rest₂ hm] at hg
        rcases List.mem_cons.mp hg with rfl | hmem
        · split_ifs with hgc
          · have hc : c ∈ monoSweep (g₂ :: rest₂) := by
              rw [hm]
              exact List.mem_cons_self _ _
            simpa using ih hrest c hc
          · exact hl gg (List.mem_cons_self _ _)
        · exact ih hrest g (hm ▸ hmem)

theorem monoSweep_getLast : ∀ l : List Group, (monoSweep l).getLast? = l.getLast? := by
  intro l
  induction l with
  | nil => rfl
  | cons g rest ih =>
    cases rest with
    | nil => rfl
    | cons g₂ rest₂ =>
      cases hm : monoSweep (g₂ :: rest₂) with
      | nil => exact absurd hm (monoSweep_ne_nil (by simp))
      | cons c cs =>
        rw [monoSweep_cons_cons g g₂ rest₂ hm, List.getLast?_cons_cons, ← hm, ih,
          List.getLast?_cons_cons]

theorem monoSweep_le_last : ∀ (l : List Group) (gl : Group), l.getLast? = some gl →
    ∀ g ∈ monoSweep l, g.fdr ≤ gl.fdr := by
  intro l
  induction l with
  | nil => intro gl h; simp at h
  | cons gg rest ih =>
    intro gl hgl g hg
    cases rest with
    | nil =>
      simp only [List.getLast?_singleton, Option.some_inj] at hgl
      subst hgl
      simp only [monoSweep, List.mem_singleton] at hg
      subst hg
      exact le_refl _
    | cons g₂ rest₂ =>
      have hgl₂ : (g₂ :: rest₂).getLast? = some gl := by
        rwa [List.getLast?_cons_cons] at hgl
      cases hm : monoSweep (g₂ :: rest₂) with
      | nil => exact absurd hm (monoSweep_ne_nil (by simp))
      | cons c cs =>
        rw [monoSweep_cons_cons gg g₂ rest₂ hm] at hg
        have hc : c ∈ monoSweep (g₂ :: rest₂) := by
          rw [hm]
          exact List.mem_cons_self _ _
        have hcle : c.fdr ≤ gl.fdr := ih gl hgl₂ c hc
        rcases List.mem_cons.mp hg with rfl | hmem
        · split_ifs with hgc
          · simpa using hcle
          · exact le_trans (le_of_not_lt hgc) hcle
        · exact ih gl hgl₂ g (hm ▸ hmem)

theorem chain_getD {R : Group → Group → Prop} : ∀ (l : List Group), List.Chain' R l →
    ∀ j, j + 1 < l.length → R (l.getD j dG) (l.getD (j + 1) dG) := by
  intro l
  induction l with
  | nil => intro _ j h; simp at h
  | cons a rest ih =>
    intro hch j hj
    cases rest with
    | nil => simp at hj
    | cons b rest₂ =>
      rw [List.chain'_cons] at hch
      cases j with
      | zero => simpa using hch.1
      | succ j =>
        simp only [List.getD_cons_succ]
        exact ih hch.2 j (by simpa using Nat.lt_of_succ_lt_succ (by simpa using hj))

/-- The calibration pipeline applied after sorting: FDR assignment, the
final clamp and the monotone sweep preserve the `loValue` order and
produce FDRs in `[0,1]` that are non-decreasing along the list. -/
theorem pipeline_invariants (pool : List ℚ) (gc : ℕ) (sg : List Group) (hsg : sg ≠ [])
    (hsorted : List.Pairwise (fun a b : Group => a.loValue ≤ b.loValue) sg) :
    List.Pairwise (fun a b : Group => a.loValue ≤ b.loValue)
      (monoSweep (clampLast (assignFdr pool gc 0 sg)))
    ∧ (∀ g ∈ monoSweep (clampLast (assignFdr pool gc 0 sg)), 0 ≤ g.fdr ∧ g.fdr ≤ 1)
    ∧ (∀ j, j + 1 < (monoSweep (clampLast (assignFdr pool gc 0 sg))).length →
        ((monoSweep (clampLast (assignFdr pool gc 0 sg))).getD j dG).fdr
          ≤ ((monoSweep (clampLast (assignFdr pool gc 0 sg))).getD (j + 1) dG).fdr) := by
  have h1ne : assignFdr pool gc 0 sg ≠ [] := by
    intro hc
    have := assignFdr_length pool gc sg 0
    rw [hc] at this
    exact hsg (List.length_eq_zero.mp this.symm)
  have h1nn : ∀ g ∈ assignFdr pool gc 0 sg, 0 ≤ g.fdr :=
    assignFdr_fdr_nonneg pool gc sg 0
  have h2nn : ∀ g ∈ clampLast (assignFdr pool gc 0 sg), 0 ≤ g.fdr :=
    clampLast_fdr_nonneg _ h1nn
  obtain ⟨gl, hgl, hgl1⟩ := clampLast_getLast (assignFdr pool gc 0 sg) h1ne
  refine ⟨?_, ?_, ?_⟩
  · have hmaps : (monoSweep (clampLast (assignFdr pool gc 0 sg))).map Group.loValue
        = sg.map Group.loValue := by
      rw [monoSweep_map_lo, clampLast_map_lo, assignFdr_map_lo]
    have hpair : (sg.map Group.loValue).Pairwise (fun a b : ℚ => a ≤ b) :=
      (List.pairwise_map).mpr hsorted
    rw [← hmaps] at hpair
    exact (List.pairwise_map).mp hpair
  · intro g hg
    refine ⟨monoSweep_fdr_nonneg _ h2nn g hg, ?_⟩
    exact le_trans (monoSweep_le_last _ gl hgl g hg) hgl1
  · intro j hj
    exact chain_getD _ (monoSweep_chain _) j hj

/-- C3: after sorting the pooled synthetic lo-values and the groups
ascending by `loValue`, the `i`-th group is assigned
`fdr_i = rankInPool / (2 · poolSize · (i + 0.5)) · groupCount`, where
`rankInPool` is the epsilon-bracketed two-sided rank of its `loValue` in
the pool. -/
theorem computeFDR_formula (groups : List Group) (maxP : ℚ) (nPass i : ℕ)
    (hi : i < groups.length) :
    List.Sorted (fun a b : ℚ => a ≤ b)
      (QuicksortF (randLoValues groups maxP (scanPassOf nPass groups.length)))
    ∧ List.Sorted (fun a b : Group => a.loValue ≤ b.loValue)
        (QuickSortGroupByLoValue groups)
    ∧ ((assignFdr (QuicksortF (randLoValues groups maxP (scanPassOf nPass groups.length)))
          groups.length 0 (QuickSortGroupByLoValue groups)).getD i dG).fdr
        = (rankIn (QuicksortF (randLoValues groups maxP (scanPassOf nPass groups.length)))
              (((QuickSortGroupByLoValue groups).getD i dG).loValue) : ℚ)
          / (2 * ((QuicksortF (randLoValues groups maxP
                (scanPassOf nPass groups.length))).length : ℚ) * ((i : ℚ) + 1/2))
          * (groups.length : ℚ) := by
  refine ⟨quicksortF_sorted _, sortGroups_sorted _, ?_⟩
  rw [assignFdr_getD _ _ _ 0 i (by rw [sortGroups_length]; exact hi)]
  unfold fdrOf
  rw [Nat.zero_add, div_div, div_div]
  ring

/-- Witness for C3 with one group of one item, `maxPercentile = 1/4`,
`numOfRandPass = 0`, index `0`. -/
theorem computeFDR_formula_witness :
    (0 < ([⟨1, 1/2, 0⟩] : List Group).length)
    ∧ (List.Sorted (fun a b : ℚ => a ≤ b)
        (QuicksortF (randLoValues [⟨1, 1/2, 0⟩] (1/4)
          (scanPassOf 0 ([⟨1, 1/2, 0⟩] : List Group).length)))
      ∧ List.Sorted (fun a b : Group => a.loValue ≤ b.loValue)
          (QuickSortGroupByLoValue [⟨1, 1/2, 0⟩])
      ∧ ((assignFdr (QuicksortF (randLoValues [⟨1, 1/2, 0⟩] (1/4)
            (scanPassOf 0 ([⟨1, 1/2, 0⟩] : List Group).length)))
            ([⟨1, 1/2, 0⟩] : List Group).length 0
            (QuickSortGroupByLoValue [⟨1, 1/2, 0⟩])).getD 0 dG).fdr
          = (rankIn (QuicksortF (randLoValues [⟨1, 1/2, 0⟩] (1/4)
                (scanPassOf 0 ([⟨1, 1/2, 0⟩] : List Group).length)))
                (((QuickSortGroupByLoValue [⟨1, 1/2, 0⟩]).getD 0 dG).loValue) : ℚ)
            / (2 * ((QuicksortF (randLoValues [⟨1, 1/2, 0⟩] (1/4)
                  (scanPassOf 0 ([⟨1, 1/2, 0⟩] : List Group).length))).length : ℚ)
                * ((0 : ℚ) + 1/2))
            * (([⟨1, 1/2, 0⟩] : List Group).length : ℚ)) :=
  ⟨by simp, computeFDR_formula [⟨1, 1/2, 0⟩] (1/4) 0 0 (by simp)⟩

/-- C4 counterexample: the pass count of `ComputeFDR` is the floor
division plus one, not the ceiling: at `numOfRandPass = 4` and
`groupCount = 2` the code computes `4/2 + 1 = 3` passes while
`⌈4/2⌉ = 2`. -/
theorem scanPass_counterexample :
    scanPassOf 4 2 = 3 ∧ Nat.ceil ((4 : ℚ) / 2) = 2
    ∧ scanPassOf 4 2 ≠ Nat.ceil ((4 : ℚ) / 2) := by
  refine ⟨rfl, ?_, ?_⟩ <;> norm_num [scanPassOf]

/-- C4 (amended): the number of synthetic passes is
`scanPass = ⌊numOfRandPass / groupCount⌋ + 1`, and the pooled synthetic
lo-value sequence has exactly `groupCount × scanPass` entries — one per
real group per pass, each computed from a drawn percentile list whose
length is that group's exact item count. -/
theorem computeFDR_pool (groups : List Group) (maxP : ℚ) (nPass : ℕ)
    (h : groups ≠ []) :
    scanPassOf nPass groups.length = nPass / groups.length + 1
    ∧ (randLoValues groups maxP (scanPassOf nPass groups.length)).length
        = groups.length * scanPassOf nPass groups.length
    ∧ (∀ k s, ((drawPercentiles k s).1).length = k)
    ∧ (∀ p s, (poolPasses maxP groups (p + 1) s).1
        = (poolOnePass maxP groups s).1
          ++ (poolPasses maxP groups p (poolOnePass maxP groups s).2).1)
    ∧ (∀ s j, j < groups.length →
        ∃ st, ((poolOnePass maxP groups s).1).getD j 0
          = ComputeLoValue ((drawPercentiles ((groups.getD j dG).itemNum) st).1) maxP) := by
  refine ⟨rfl, ?_, drawPercentiles_length, fun p s => rfl, poolOnePass_getD maxP groups⟩
  unfold randLoValues
  rw [poolPasses_length]
  exact Nat.mul_comm _ _

/-- Witness for C4 with one group of one item, `maxPercentile = 1/4`,
`numOfRandPass = 0`. -/
theorem computeFDR_pool_witness :
    (([⟨1, 1/2, 0⟩] : List Group) ≠ [])
    ∧ (scanPassOf 0 ([⟨1, 1/2, 0⟩] : List Group).length
        = 0 / ([⟨1, 1/2, 0⟩] : List Group).length + 1
      ∧ (randLoValues [⟨1, 1/2, 0⟩] (1/4)
          (scanPassOf 0 ([⟨1, 1/2, 0⟩] : List Group).length)).length
          = ([⟨1, 1/2, 0⟩] : List Group).length
            * scanPassOf 0 ([⟨1, 1/2, 0⟩] : List Group).length
      ∧ (∀ k s, ((drawPercentiles k s).1).length = k)
      ∧ (∀ p s, (poolPasses (1/4) [⟨1, 1/2, 0⟩] (p + 1) s).1
          = (poolOnePass (1/4) [⟨1, 1/2, 0⟩] s).1
            ++ (poolPasses (1/4) [⟨1, 1/2, 0⟩] p (poolOnePass (1/4) [⟨1, 1/2, 0⟩] s).2).1)
      ∧ (∀ s j, j < ([⟨1, 1/2, 0⟩] : List Group).length →
          ∃ st, ((poolOnePass (1/4) [⟨1, 1/2, 0⟩] s).1).getD j 0
            = ComputeLoValue
                ((drawPercentiles (([⟨1, 1/2, 0⟩] : List Group).getD j dG).itemNum st).1)
                (1/4))) :=
  ⟨by simp, computeFDR_pool [⟨1, 1/2, 0⟩] (1/4) 0 (by simp)⟩

/-- C5: after `ComputeFDR`, the groups are sorted ascending by `loValue`,
every FDR lies in `[0,1]`, and the FDRs are non-decreasing along that
order (the last FDR is clamped to at most `1.0` and the sweep lowers each
FDR to the minimum with its successor). -/
theorem computeFDR_invariants (groups : List Group) (maxP : ℚ) (nPass s0 : ℕ)
    (h : groups ≠ []) :
    List.Pairwise (fun a b : Group => a.loValue ≤ b.loValue)
      (ComputeFDR groups maxP nPass s0).1
    ∧ (∀ g ∈ (ComputeFDR groups maxP nPass s0).1, 0 ≤ g.fdr ∧ g.fdr ≤ 1)
    ∧ (∀ j, j + 1 < ((ComputeFDR groups maxP nPass s0).1).length →
        (((ComputeFDR groups maxP nPass s0).1).getD j dG).fdr
          ≤ (((ComputeFDR groups maxP nPass s0).1).getD (j + 1) dG).fdr) := by
  have hsgne : QuickSortGroupByLoValue groups ≠ [] := by
    intro hc
    have := sortGroups_length groups
    rw [hc] at this
    exact h (List.length_eq_zero.mp this.symm)
  exact pipeline_invariants
    (QuicksortF (poolPasses maxP groups (scanPassOf nPass groups.length)
      (PlantSeeds 123456)).1)
    groups.length (QuickSortGroupByLoValue groups) hsgne (sortGroups_sorted groups)

/-- Witness for C5 with one group of one item, `maxPercentile = 1/4`,
`numOfRandPass = 0`, ambient generator state `7`. -/
theorem computeFDR_invariants_witness :
    (([⟨1, 1/2, 0⟩] : List Group) ≠ [])
    ∧ (List.Pairwise (fun a b : Group => a.loValue ≤ b.loValue)
        (ComputeFDR [⟨1, 1/2, 0⟩] (1/4) 0 7).1
      ∧ (∀ g ∈ (ComputeFDR [⟨1, 1/2, 0⟩] (1/4) 0 7).1, 0 ≤ g.fdr ∧ g.fdr ≤ 1)
      ∧ (∀ j, j + 1 < ((ComputeFDR [⟨1, 1/2, 0⟩] (1/4) 0 7).1).length →
          (((ComputeFDR [⟨1, 1/2, 0⟩] (1/4) 0 7).1).getD j dG).fdr
            ≤ (((ComputeFDR [⟨1, 1/2, 0⟩] (1/4) 0 7).1).getD (j + 1) dG).fdr)) :=
  ⟨by simp, computeFDR_invariants [⟨1, 1/2, 0⟩] (1/4) 0 7 (by simp)⟩

/-- C8: the FDR stage is deterministic: the generator is re-seeded with
the fixed constant `123456` at the start of `ComputeFDR`, so the result
does not depend on the ambient generator state, and two runs on
identical inputs produce identical FDR values for every group. -/
theorem computeFDR_deterministic :
    ∀ (groups : List Group) (maxP : ℚ) (nPass s₁ s₂ : ℕ),
      ((ComputeFDR groups maxP nPass s₁).1).map Group.fdr
          = ((ComputeFDR groups maxP nPass s₂).1).map Group.fdr
      ∧ (ComputeFDR groups maxP nPass s₁).1 = (ComputeFDR groups maxP nPass s₂).1
      ∧ randLoValues groups maxP (scanPassOf nPass groups.length)
          = (poolPasses maxP groups (scanPassOf nPass groups.length)
              (PlantSeeds 123456)).1 :=
  fun _ _ _ _ _ => ⟨rfl, rfl, rfl⟩

end RRA
